import Mathlib

/-!
Verification of the cryptographic core of the `fde` repository: the exponential
ElGamal encryption scheme (`src/encrypt/elgamal.rs`) and the KZG-based range
proof (`src/range_proof/mod.rs`).

Group model: both subsystems work over a cyclic pairing group `G₁` of prime
order `q` with designated generator `g` and scalar field `F = ZMod q`.  Such a
group is isomorphic (as a `ZMod q`-module) to `ZMod q` itself via the discrete
logarithm sending `g` to `1`.  We therefore represent a point `a·g` by its
exponent `a : ZMod q`: point addition becomes addition, and scalar
multiplication `k · P` becomes field multiplication.  The pairing check
`e(π, τ·h − u·h) = e(P − v·g, h)` of KZG becomes, by bilinearity and
non-degeneracy of `e` on a prime-order group, the exponent equation
`π * (τ − u) = P − v`.

The modules `poly`, `utils` (under `src/range_proof/`), `commit::kzg` and
`hash::Hasher` are part of the repository but their sources are not available;
definitions for them below are modelled from the specification (each is marked
`Modelled from the spec:`).  `ark_poly`'s `GeneralEvaluationDomain::new` is an
external dependency; it is modelled by its documented behaviour (radix-2 domain
whose size is the requested size rounded up to the next power of two, subject
to the two-adicity bound of the field).
-/

namespace Fde

/-! ## Exponential ElGamal (`src/encrypt/elgamal.rs`) -/

section ElGamal

variable (q : ℕ) [NeZero q]

/-- The designated generator of `G₁` in the discrete-log representation:
`<C::Affine as AffineRepr>::generator()` is represented by `1 : ZMod q`. -/
def genG : ZMod q := 1

/-- `Cipher<C>`: a pair of `G₁` points `[C::Affine; 2]` (exponent representation). -/
structure Cipher (N : ℕ) where
  c0 : ZMod N
  c1 : ZMod N
deriving DecidableEq

/-- `impl Add for Cipher`: component-wise addition of the two points. -/
def Cipher.addC (x y : Cipher q) : Cipher q :=
  ⟨x.c0 + y.c0, x.c1 + y.c1⟩

/-- `ExponentialElGamal::encrypt_with_randomness(data, key, randomness)`:
`c₀ = generator * randomness`, `c₁ = generator * data + key * randomness`. -/
def encryptWithRandomness (data key randomness : ZMod q) : Cipher q :=
  ⟨genG q * randomness, genG q * data + key * randomness⟩

/-- `ExponentialElGamal::decrypt_exp(cipher, key)`: `c₁ − c₀ * key`. -/
def decryptExp (cipher : Cipher q) (key : ZMod q) : ZMod q :=
  cipher.c1 - cipher.c0 * key

/-- `C::ScalarField::from(u32::MAX)`: the scalar `2³² − 1`. -/
def maxU32 : ZMod q := ((4294967295 : ℕ) : ZMod q)

/-- The `while` loop of `ExponentialElGamal::brute_force`, with explicit fuel
(one unit per loop iteration; the Rust loop carries no fuel, and the theorems
below show the chosen fuel is never exhausted, so this is faithful).
The comparison `exponent < max` is arkworks' `PartialOrd` on prime-field
elements, which compares the canonical integer representatives, i.e. `val`. -/
def bruteForceAux (decrypted : ZMod q) : ℕ → ZMod q → ZMod q
  | 0, e => e
  | fuel + 1, e =>
    if genG q * e ≠ decrypted ∧ e.val < (maxU32 q).val then
      bruteForceAux decrypted fuel (e + 1)
    else e

/-- `ExponentialElGamal::brute_force(decrypted)`: exhaustive search for the
discrete logarithm, starting from `0`, at most `2³² − 1` increments. -/
def bruteForce (decrypted : ZMod q) : ZMod q :=
  bruteForceAux q decrypted 4294967295 0

/-- `ExponentialElGamal::decrypt(cipher, key)` (the `EncryptionEngine` impl):
brute-force the discrete log of `decrypt_exp`. -/
def decrypt (cipher : Cipher q) (key : ZMod q) : ZMod q :=
  bruteForce q (decryptExp q cipher key)

/-- The zero cipher `(0·g, 0·g)`; it is `encrypt_with_randomness 0 pk 0` and the
neutral element of component-wise addition, used as base of list sums. -/
def zeroCipher : Cipher q := ⟨0, 0⟩

/-- Sum of a finite list of ciphertexts via `Cipher`'s `Add`. -/
def sumCiphers (l : List (Cipher q)) : Cipher q :=
  l.foldr (Cipher.addC q) (zeroCipher q)

end ElGamal

/-! ## KZG-based range proof (`src/range_proof/mod.rs`) -/

section RangeProofPart

open Polynomial

/-- Transcript items: everything `Hasher::update` absorbs is first canonically
serialized; byte strings, scalars and `G₁` points are kept as separate
constructors (their serializations cannot collide). -/
inductive TData (N : ℕ) where
  | bytes (bs : List ℕ)
  | scalar (s : ZMod N)
  | point (p : ZMod N)
deriving DecidableEq

/-- The error kinds of the repository plus the modelled panic of
`.expect("valid domain")` (`mod.rs` lines 44-46 and 123). -/
inductive RPError where
  | badDomainSize
  | degreeTooLarge
  | rangeProofInvalidWitness
  | panicValidDomain
deriving DecidableEq

/-- `b"fde range proof"` (`PROOF_DOMAIN_SEP`), as bytes. -/
def SEP : List ℕ :=
  [102, 100, 101, 32, 114, 97, 110, 103, 101, 32, 112, 114, 111, 111, 102]

/-- `b"tau"`. -/
def labelTau : List ℕ := [116, 97, 117]

/-- `b"rho"`. -/
def labelRho : List ℕ := [114, 104, 111]

/-- `b"aggregation_challenge"`. -/
def labelAgg : List ℕ :=
  [97, 103, 103, 114, 101, 103, 97, 116, 105, 111, 110, 95, 99, 104, 97, 108,
   108, 101, 110, 103, 101]

/-- `usize::to_le_bytes`: eight little-endian bytes. -/
def toLeBytes8 (n : ℕ) : List ℕ :=
  (List.range 8).map fun i => n / 256 ^ i % 256

/-- The size actually used by `ark_poly`'s
`GeneralEvaluationDomain::<F>::new(n)`: the radix-2 evaluation domain rounds
the requested number of coefficients up to the next power of two
(`0` is rounded up to `1`). -/
def arkDomainSize (n : ℕ) : ℕ := 2 ^ Nat.clog 2 n

/-- `GeneralEvaluationDomain::new(n).expect("valid domain")`:
`ark_poly` succeeds, with the rounded-up size, iff that size is at most
`2 ^ TA` where `TA` is the two-adicity of the scalar field (32 for BLS12-381);
otherwise `new` returns `None` and the `expect` panics.  The panic is modelled
as the error `panicValidDomain`. -/
def domainStep (TA n : ℕ) : Except RPError ℕ :=
  if arkDomainSize n ≤ 2 ^ TA then .ok (arkDomainSize n) else .error .panicValidDomain

/-- The structured reference string `Powers` in the discrete-log
representation: the `G₁` powers `(g, τ·g, τ²·g, …)` are determined by the
trapdoor `tau`; `len` is the number of `G₁` powers available (so the largest
committable degree is `len − 1`).  The `G₂` pair `(h, τ·h)` is likewise
determined by `tau`. -/
structure PowersT (N : ℕ) where
  tau : ZMod N
  len : ℕ

/-- Modelled from the spec: `commit_g1` of the KZG engine (`src/commit/kzg.rs`
is not under `src/`): the MSM `Σ pᵢ · τⁱ·g`, whose exponent is `p(τ)`; fails
with `DegreeTooLarge` if `deg p` exceeds the largest committable degree. -/
noncomputable def commitG1 (q : ℕ) (pw : PowersT q) (p : Polynomial (ZMod q)) :
    Except RPError (ZMod q) :=
  if p.natDegree < pw.len then .ok (p.eval pw.tau) else .error .degreeTooLarge

/-- Modelled from the spec: `Kzg::witness(p, u)`, the exact quotient
`(p(X) − p(u)) / (X − u)` (the remainder is zero by construction). -/
noncomputable def kzgWitnessPoly (q : ℕ) (p : Polynomial (ZMod q)) (u : ZMod q) :
    Polynomial (ZMod q) :=
  (p - C (p.eval u)) /ₘ (X - C u)

/-- Modelled from the spec: `Kzg::verify_scalar(π, [P]₁, u, v)`, the pairing
check `e(π, τ·h − u·h) = e([P]₁ − v·g, h)`, written in exponents. -/
def verifyScalarKzg (q : ℕ) (pw : PowersT q) (w P u v : ZMod q) : Bool :=
  decide (w * (pw.tau - u) = P - v)

/-- The revealed evaluations `(g(ρ), g(ρω), w_cap(ρ))` of a `RangeProof`. -/
structure RPEvaluations (N : ℕ) where
  g : ZMod N
  gOmega : ZMod N
  wCap : ZMod N
deriving DecidableEq

/-- The commitments `(F, G, Q)` of a `RangeProof`. -/
structure RPCommitments (N : ℕ) where
  f : ZMod N
  g : ZMod N
  q : ZMod N
deriving DecidableEq

/-- The opening proofs `(π_agg, π_shift)` of a `RangeProof`. -/
structure RPProofs (N : ℕ) where
  aggregate : ZMod N
  shifted : ZMod N
deriving DecidableEq

/-- The `RangeProof` artifact. -/
structure RangeProofT (N : ℕ) where
  evaluations : RPEvaluations N
  commitments : RPCommitments N
  proofs : RPProofs N
deriving DecidableEq

/-- The vanishing polynomial `Z_H(X) = Xˢ − 1` of the size-`s` domain. -/
noncomputable def ZHpoly (q s : ℕ) : Polynomial (ZMod q) := X ^ s - 1

/-- Interpolation of the value vector `v` on the size-`s` domain `{ωⁱ}`. -/
noncomputable def interpolateH (q s : ℕ) [Fact (Nat.Prime q)] (ω : ZMod q) (v : ℕ → ZMod q) :
    Polynomial (ZMod q) :=
  Lagrange.interpolate (Finset.range s) (fun i => ω ^ i) v

/-- Modelled from the spec: `poly::f(domain, z, r)` (`src/range_proof/poly.rs`
is not under `src/`): interpolate the constant vector `(z, …, z)` on the
domain, then add the blinding `r · Z_H(X)`. -/
noncomputable def fPoly (q s : ℕ) [Fact (Nat.Prime q)] (ω z r : ZMod q) : Polynomial (ZMod q) :=
  interpolateH q s ω (fun _ => z) + C r * ZHpoly q s

/-- The value `gᵢ = Σ_{j≥i} b_j 2^{j−i}` of the running partial-sum vector,
computed from the integer representative of `z`: only the low `s` bits of `z`
enter the domain-sized evaluation vector. -/
def gValNat (s zv i : ℕ) : ℕ := (zv % 2 ^ s) >>> i

/-- Modelled from the spec: `poly::g(domain, z, alpha, beta)`: interpolate the
partial-sum vector `(g₀, …, g_{s−1})` on the domain, then add the degree-
`(s+1)` blinding `(α + β·X) · Z_H(X)`. -/
noncomputable def gPoly (q s : ℕ) [Fact (Nat.Prime q)] (ω z α β : ZMod q) : Polynomial (ZMod q) :=
  interpolateH q s ω (fun i => ((gValNat s z.val i : ℕ) : ZMod q))
    + (C α + C β * X) * ZHpoly q s

/-- The selector `(Xˢ − 1)/(X − 1) = 1 + X + … + X^{s−1}` (n·L₀ up to the
normalisation absorbed into the aggregated constraint). -/
noncomputable def selectorS (q s : ℕ) : Polynomial (ZMod q) :=
  ∑ i ∈ Finset.range s, X ^ i

/-- The selector `(Xˢ − 1)/(X − ω^{s−1}) = ∏_{i<s−1} (X − ωⁱ)`. -/
noncomputable def selectorT (q s : ℕ) (ω : ZMod q) : Polynomial (ZMod q) :=
  ∏ i ∈ Finset.range (s - 1), (X - C (ω ^ i))

/-- Modelled from the spec: the first constraint polynomial of
`poly::w1_w2`, enforcing `f(1) = g(1)` (i.e. `g₀ = z`):
`W₁(X) = (g(X) − f(X)) · (Xˢ − 1)/(X − 1)`, divisible by `Z_H` iff
`g(1) = f(1)`. -/
noncomputable def w1Poly (q s : ℕ) (fp gp : Polynomial (ZMod q)) :
    Polynomial (ZMod q) :=
  (gp - fp) * selectorS q s

/-- Modelled from the spec: the second constraint polynomial of `poly::w1_w2`,
enforcing `g(ω^{s−1}) ∈ {0,1}`:
`W₂(X) = g(X)·(1 − g(X)) · (Xˢ − 1)/(X − ω^{s−1})`. -/
noncomputable def w2Poly (q s : ℕ) (ω : ZMod q) (gp : Polynomial (ZMod q)) :
    Polynomial (ZMod q) :=
  gp * (1 - gp) * selectorT q s ω

/-- The shifted polynomial `g(ωX)`. -/
noncomputable def gOmegaPoly (q : ℕ) (ω : ZMod q) (gp : Polynomial (ZMod q)) :
    Polynomial (ZMod q) :=
  gp.comp (C ω * X)

/-- Modelled from the spec: `poly::w3(domain, domain_2n, g)`, enforcing the
bit recurrence `bᵢ = gᵢ − 2·g_{i+1} ∈ {0,1}` on `H \ {ω^{s−1}}`:
`W₃(X) = (g(X) − 2·g(ωX)) · (1 − g(X) + 2·g(ωX)) · (X − ω^{s−1})`
(the last factor removes the wrap-around point `ω^{s−1}`, as required for the
spec's statement that the aggregated `W` vanishes on all of `H`; the size-`2n`
domain only serves to evaluate this product by DFT). -/
noncomputable def w3Poly (q s : ℕ) (ω : ZMod q) (gp : Polynomial (ZMod q)) :
    Polynomial (ZMod q) :=
  (gp - 2 * gOmegaPoly q ω gp) * (1 - gp + 2 * gOmegaPoly q ω gp)
    * (X - C (ω ^ (s - 1)))

/-- The aggregated constraint polynomial `W = W₁ + τ·W₂ + τ²·W₃`. -/
noncomputable def aggregatedW (q s : ℕ) (ω τ : ZMod q)
    (fp gp : Polynomial (ZMod q)) : Polynomial (ZMod q) :=
  w1Poly q s fp gp + C τ * w2Poly q s ω gp + C (τ ^ 2) * w3Poly q s ω gp

/-- Modelled from the spec: `poly::quotient(domain, w1, w2, w3, tau)`: compute
`q(X) = W(X)/Z_H(X)` by exact division; failure to divide exactly indicates an
out-of-range witness and must abort with `RangeProofInvalidWitness` (the Rust
implementation panics with "remainder poly should be zero", per the tests in
`mod.rs`). -/
noncomputable def quotientStep (q s : ℕ) (wAgg : Polynomial (ZMod q)) :
    Except RPError (Polynomial (ZMod q)) :=
  if wAgg %ₘ ZHpoly q s = 0 then .ok (wAgg /ₘ ZHpoly q s)
  else .error .rangeProofInvalidWitness

/-- Modelled from the spec: `poly::w_cap(domain, f, q, rho)`: the linear
combination of `f` and `q` with the `ρ`-scalars substituted, chosen (per §4.E
and §9 of the spec) so that the verifier can reconstruct both its commitment
from `[F]₁, [Q]₁` and its value at `ρ` from the revealed evaluations:
`w_cap(X) = ((ρˢ−1)/(ρ−1)) · f(X) + (ρˢ−1) · q(X)`. -/
noncomputable def wCapPoly (q s : ℕ) (fp qp : Polynomial (ZMod q)) (ρ : ZMod q) :
    Polynomial (ZMod q) :=
  C (∑ i ∈ Finset.range s, ρ ^ i) * fp + C (ρ ^ s - 1) * qp

/-- Modelled from the spec: `utils::w_cap(domain_size, f, q, rho)`
(`src/range_proof/utils.rs` is not under `src/`): the verifier's
reconstruction `[w_cap]₁ = ((ρˢ−1)/(ρ−1))·[F]₁ + (ρˢ−1)·[Q]₁`. -/
def wCapComm (q s : ℕ) (fc qc ρ : ZMod q) : ZMod q :=
  (∑ i ∈ Finset.range s, ρ ^ i) * fc + (ρ ^ s - 1) * qc

/-- Modelled from the spec: `utils::w1_w2_w3_evals_sum(domain, g, g_omega, rho,
tau)`: the prover-claimed value of `W(ρ)`'s `g`-part, reassembled from the
revealed evaluations and the Lagrange-selector values at `ρ`; it must equal
`w_cap(ρ)`. -/
def evalsSum (q s : ℕ) (ω gE gOE ρ τ : ZMod q) : ZMod q :=
  gE * (∑ i ∈ Finset.range s, ρ ^ i)
    + τ * (gE * (1 - gE) * ∏ i ∈ Finset.range (s - 1), (ρ - ω ^ i))
    + τ ^ 2 * ((gE - 2 * gOE) * (1 - gE + 2 * gOE) * (ρ - ω ^ (s - 1)))

/-- The transcript after `update(PROOF_DOMAIN_SEP)`, `update(n.to_le_bytes())`,
`update(domain.group_gen())`, `update(F)`, `update(G)` (`mod.rs` lines 60-65
and 125-130): identical on prover and verifier sides. -/
def baseTranscript (q : ℕ) (n : ℕ) (ω fc gc : ZMod q) : List (TData q) :=
  [.bytes SEP, .bytes (toLeBytes8 n), .scalar ω, .point fc, .point gc]

/-- Modelled from the spec: `Hasher::next_scalar(label)` feeds the label and
derives a scalar from the resulting state; `hashS` is the arbitrary
state-to-scalar map (random oracle in the spec).  `tau` is squeezed first. -/
def tauChallenge (q : ℕ) (hashS : List (TData q) → ZMod q) (n : ℕ)
    (ω fc gc : ZMod q) : ZMod q :=
  hashS (baseTranscript q n ω fc gc ++ [.bytes labelTau])

/-- The transcript state from which `rho` is squeezed. -/
def rhoChallenge (q : ℕ) (hashS : List (TData q) → ZMod q) (n : ℕ)
    (ω fc gc : ZMod q) : ZMod q :=
  hashS (baseTranscript q n ω fc gc ++ [.bytes labelTau, .bytes labelRho])

/-- The transcript state from which `aggregation_challenge` is squeezed
(`mod.rs` line 69 and line 134): the three challenges are squeezed
consecutively with no `update` in between, so this state consists of the five
base items and the two previous labels plus this one. -/
def gammaTranscript (q : ℕ) (n : ℕ) (ω fc gc : ZMod q) : List (TData q) :=
  baseTranscript q n ω fc gc ++ [.bytes labelTau, .bytes labelRho, .bytes labelAgg]

/-- The aggregation challenge `gamma`. -/
def gammaChallenge (q : ℕ) (hashS : List (TData q) → ZMod q) (n : ℕ)
    (ω fc gc : ZMod q) : ZMod q :=
  hashS (gammaTranscript q n ω fc gc)

/-- `RangeProof::new(z, n, powers, rng)` (`mod.rs` lines 43-120).  The three
`rng` draws are the explicit arguments `r`, `α`, `β`; `hashS` is the hash
backing the transcript, `genOf` assigns to every domain size the group
generator `ark_poly` computes for it, and `TA` is the field's two-adicity.
Panics are modelled as `Except.error`. -/
noncomputable def rangeProofNew (q : ℕ) [Fact (Nat.Prime q)] (hashS : List (TData q) → ZMod q)
    (genOf : ℕ → ZMod q) (TA : ℕ) (z : ZMod q) (n : ℕ) (pw : PowersT q)
    (r α β : ZMod q) : Except RPError (RangeProofT q) := do
  let s ← domainStep TA n
  let _s2 ← domainStep TA (2 * n)
  let ω := genOf s
  let fp := fPoly q s ω z r
  let gp := gPoly q s ω z α β
  let fc ← commitG1 q pw fp
  let gc ← commitG1 q pw gp
  let τ := tauChallenge q hashS n ω fc gc
  let ρ := rhoChallenge q hashS n ω fc gc
  let γ := gammaChallenge q hashS n ω fc gc
  let qp ← quotientStep q s (aggregatedW q s ω τ fp gp)
  let qc ← commitG1 q pw qp
  let ρω := ρ * ω
  let gEval := gp.eval ρ
  let gOmegaEval := gp.eval ρω
  let wCap := wCapPoly q s fp qp ρ
  let wCapEval := wCap.eval ρ
  let shiftedProof ← commitG1 q pw (kzgWitnessPoly q gp ρω)
  let aggregateProof ← commitG1 q pw (kzgWitnessPoly q (gp + C γ * wCap) ρ)
  .ok ⟨⟨gEval, gOmegaEval, wCapEval⟩, ⟨fc, gc, qc⟩, ⟨aggregateProof, shiftedProof⟩⟩

/-- `RangeProof::verify(n, powers)` (`mod.rs` lines 122-184). -/
def rangeProofVerify (q : ℕ) (hashS : List (TData q) → ZMod q)
    (genOf : ℕ → ZMod q) (TA : ℕ) (prf : RangeProofT q) (n : ℕ)
    (pw : PowersT q) : Except RPError Bool := do
  let s ← domainStep TA n
  let ω := genOf s
  let τ := tauChallenge q hashS n ω prf.commitments.f prf.commitments.g
  let ρ := rhoChallenge q hashS n ω prf.commitments.f prf.commitments.g
  let γ := gammaChallenge q hashS n ω prf.commitments.f prf.commitments.g
  let wCapC := wCapComm q s prf.commitments.f prf.commitments.q ρ
  let sum := evalsSum q s ω prf.evaluations.g prf.evaluations.gOmega ρ τ
  if sum ≠ prf.evaluations.wCap then
    .ok false
  else
    .ok (verifyScalarKzg q pw prf.proofs.aggregate
          (prf.commitments.g + γ * wCapC) ρ
          (prf.evaluations.g + γ * prf.evaluations.wCap)
        && verifyScalarKzg q pw prf.proofs.shifted prf.commitments.g (ρ * ω)
          prf.evaluations.gOmega)

/-- Check (3) of the verifier, as the spec states it: the value of `W(ρ)`
recomputed from `g_eval`, `g_omega_eval`, the regenerated challenges and the
Lagrange selectors at `ρ` equals the revealed `w_cap_eval`. -/
def sumCheckHolds (q : ℕ) (hashS : List (TData q) → ZMod q)
    (genOf : ℕ → ZMod q) (prf : RangeProofT q) (n : ℕ) : Prop :=
  evalsSum q (arkDomainSize n) (genOf (arkDomainSize n)) prf.evaluations.g
      prf.evaluations.gOmega
      (rhoChallenge q hashS n (genOf (arkDomainSize n)) prf.commitments.f
        prf.commitments.g)
      (tauChallenge q hashS n (genOf (arkDomainSize n)) prf.commitments.f
        prf.commitments.g)
    = prf.evaluations.wCap

/-- Check (4) of the verifier: the aggregated KZG pairing check on
`([G]₁ + γ·[w_cap]₁, ρ, g_eval + γ·w_cap_eval)`. -/
def aggPairingHolds (q : ℕ) (hashS : List (TData q) → ZMod q)
    (genOf : ℕ → ZMod q) (prf : RangeProofT q) (n : ℕ) (pw : PowersT q) : Prop :=
  verifyScalarKzg q pw prf.proofs.aggregate
      (prf.commitments.g
        + gammaChallenge q hashS n (genOf (arkDomainSize n)) prf.commitments.f
            prf.commitments.g
          * wCapComm q (arkDomainSize n) prf.commitments.f prf.commitments.q
              (rhoChallenge q hashS n (genOf (arkDomainSize n))
                prf.commitments.f prf.commitments.g))
      (rhoChallenge q hashS n (genOf (arkDomainSize n)) prf.commitments.f
        prf.commitments.g)
      (prf.evaluations.g
        + gammaChallenge q hashS n (genOf (arkDomainSize n)) prf.commitments.f
            prf.commitments.g
          * prf.evaluations.wCap)
    = true

/-- Check (5) of the verifier: the shifted KZG pairing check on
`([G]₁, ρω, g_omega_eval)`. -/
def shiftedPairingHolds (q : ℕ) (hashS : List (TData q) → ZMod q)
    (genOf : ℕ → ZMod q) (prf : RangeProofT q) (n : ℕ) (pw : PowersT q) : Prop :=
  verifyScalarKzg q pw prf.proofs.shifted prf.commitments.g
      (rhoChallenge q hashS n (genOf (arkDomainSize n)) prf.commitments.f
          prf.commitments.g
        * genOf (arkDomainSize n))
      prf.evaluations.gOmega
    = true

end RangeProofPart

/-! ## Instances for the concrete moduli used in witnesses -/

instance : NeZero (4294967311 : ℕ) := ⟨by norm_num⟩

instance {ε α : Type} [DecidableEq ε] [DecidableEq α] : DecidableEq (Except ε α) := fun a b =>
  match a, b with
  | .ok x, .ok y =>
    if h : x = y then .isTrue (by rw [h])
    else .isFalse (fun hc => h (Except.ok.inj hc))
  | .error e, .error e2 =>
    if h : e = e2 then .isTrue (by rw [h])
    else .isFalse (fun hc => h (Except.error.inj hc))
  | .ok _, .error _ => .isFalse (fun hc => Except.noConfusion hc)
  | .error _, .ok _ => .isFalse (fun hc => Except.noConfusion hc)

instance : Fact (Nat.Prime 5) := ⟨by norm_num⟩

instance : Fact (Nat.Prime 17) := ⟨by norm_num⟩

/-! ## Lemmas about the brute-force discrete-log loop -/

section ElGamalLemmas

variable {q : ℕ}

theorem maxU32_val (hq : 4294967295 < q) : (maxU32 q).val = 4294967295 :=
  ZMod.val_natCast_of_lt (by omega)

theorem bruteForceAux_finds (hq : 4294967295 < q) {m : ℕ} (hm : m ≤ 4294967295) :
    ∀ fuel j, j ≤ m → m - j ≤ fuel →
      bruteForceAux q ((m : ℕ) : ZMod q) fuel ((j : ℕ) : ZMod q) = ((m : ℕ) : ZMod q) := by
  intro fuel
  induction fuel with
  | zero =>
    intro j hj hfj
    have hjm : j = m := by omega
    subst hjm
    rfl
  | succ fuel ih =>
    intro j hj hfj
    rcases eq_or_lt_of_le hj with rfl | hlt
    · rw [bruteForceAux]
      simp [genG]
    · rw [bruteForceAux]
      have hne : ((j : ℕ) : ZMod q) ≠ ((m : ℕ) : ZMod q) := by
        intro h
        have hv := congrArg ZMod.val h
        rw [ZMod.val_natCast_of_lt (by omega), ZMod.val_natCast_of_lt (by omega)] at hv
        omega
      have hval : ((j : ℕ) : ZMod q).val < (maxU32 q).val := by
        rw [maxU32_val hq, ZMod.val_natCast_of_lt (by omega)]
        omega
      rw [if_pos ⟨by simpa [genG] using hne, hval⟩]
      have hcast : ((j : ℕ) : ZMod q) + 1 = (((j + 1 : ℕ)) : ZMod q) := by push_cast; ring
      rw [hcast]
      exact ih (j + 1) (by omega) (by omega)

theorem bruteForce_finds (hq : 4294967295 < q) {m : ℕ} (hm : m ≤ 4294967295) :
    bruteForce q ((m : ℕ) : ZMod q) = ((m : ℕ) : ZMod q) := by
  have h0 : ((0 : ℕ) : ZMod q) = 0 := by norm_num
  have := bruteForceAux_finds hq hm 4294967295 0 (by omega) (by omega)
  rwa [h0] at this

theorem bruteForceAux_nomatch (hq : 4294967295 < q) {d : ZMod q}
    (hd : ∀ k : ℕ, k ≤ 4294967295 → ((k : ℕ) : ZMod q) ≠ d) :
    ∀ fuel j, j ≤ 4294967295 → 4294967295 - j ≤ fuel →
      bruteForceAux q d fuel ((j : ℕ) : ZMod q) = maxU32 q := by
  intro fuel
  induction fuel with
  | zero =>
    intro j hj hfj
    have hjm : j = 4294967295 := by omega
    subst hjm
    rfl
  | succ fuel ih =>
    intro j hj hfj
    rcases eq_or_lt_of_le hj with rfl | hlt
    · rw [bruteForceAux]
      have hnl : ¬ (((4294967295 : ℕ) : ZMod q).val < (maxU32 q).val) := by
        simp [maxU32]
      rw [if_neg (fun hcon => hnl hcon.2)]
      rfl
    · rw [bruteForceAux]
      have hne : genG q * ((j : ℕ) : ZMod q) ≠ d := by
        simpa [genG] using hd j (by omega)
      have hval : ((j : ℕ) : ZMod q).val < (maxU32 q).val := by
        rw [maxU32_val hq, ZMod.val_natCast_of_lt (by omega)]
        omega
      rw [if_pos ⟨hne, hval⟩]
      have hcast : ((j : ℕ) : ZMod q) + 1 = (((j + 1 : ℕ)) : ZMod q) := by push_cast; ring
      rw [hcast]
      exact ih (j + 1) (by omega) (by omega)

theorem bruteForceAux_fuel_irrelevant (d : ZMod q) :
    ∀ fuel j, j ≤ 4294967295 → 4294967295 - j ≤ fuel →
      bruteForceAux q d fuel ((j : ℕ) : ZMod q)
        = bruteForceAux q d (4294967295 - j) ((j : ℕ) : ZMod q) := by
  intro fuel
  induction fuel with
  | zero =>
    intro j hj hfj
    have hjm : 4294967295 - j = 0 := by omega
    rw [hjm]
  | succ fuel ih =>
    intro j hj hfj
    rcases eq_or_lt_of_le hj with rfl | hlt
    · have hjm : (4294967295 : ℕ) - 4294967295 = 0 := by omega
      have hnl : ¬ (((4294967295 : ℕ) : ZMod q).val < (maxU32 q).val) := by
        simp [maxU32]
      rw [hjm]
      simp only [bruteForceAux]
      rw [if_neg (fun hcon => hnl hcon.2)]
    · obtain ⟨k, hk⟩ : ∃ k, 4294967295 - j = k + 1 := ⟨4294967295 - j - 1, by omega⟩
      rw [hk, bruteForceAux, bruteForceAux]
      by_cases hguard : genG q * ((j : ℕ) : ZMod q) ≠ d ∧
          ((j : ℕ) : ZMod q).val < (maxU32 q).val
      · rw [if_pos hguard, if_pos hguard]
        have hcast : ((j : ℕ) : ZMod q) + 1 = (((j + 1 : ℕ)) : ZMod q) := by push_cast; ring
        rw [hcast]
        have hk2 : 4294967295 - (j + 1) = k := by omega
        have := ih (j + 1) (by omega) (by omega)
        rw [hk2] at this
        exact this
      · rw [if_neg hguard, if_neg hguard]

end ElGamalLemmas

/-! ## Lemmas about the range-proof polynomials -/

section RangeProofLemmas

open Polynomial

variable {q : ℕ} [Fact (Nat.Prime q)]

theorem nodes_injOn {s : ℕ} {ω : ZMod q} (hω : IsPrimitiveRoot ω s) :
    Set.InjOn (fun i => ω ^ i) ((Finset.range s : Finset ℕ) : Set ℕ) := by
  intro i hi j hj h
  exact hω.pow_inj (by simpa using hi) (by simpa using hj) h

theorem interpolateH_eval {s : ℕ} {ω : ZMod q} (hω : IsPrimitiveRoot ω s)
    (v : ℕ → ZMod q) {i : ℕ} (hi : i < s) :
    (interpolateH q s ω v).eval (ω ^ i) = v i :=
  Lagrange.eval_interpolate_at_node v (nodes_injOn hω) (Finset.mem_range.mpr hi)

theorem ZHpoly_eval (x : ZMod q) (s : ℕ) : (ZHpoly q s).eval x = x ^ s - 1 := by
  simp [ZHpoly]

theorem ZHpoly_eval_node {s : ℕ} {ω : ZMod q} (hω : IsPrimitiveRoot ω s) (i : ℕ) :
    (ZHpoly q s).eval (ω ^ i) = 0 := by
  rw [ZHpoly_eval, ← pow_mul, mul_comm i s, pow_mul, hω.pow_eq_one, one_pow, sub_self]

theorem fPoly_eval_node {s : ℕ} {ω : ZMod q} (hω : IsPrimitiveRoot ω s)
    (z r : ZMod q) {i : ℕ} (hi : i < s) :
    (fPoly q s ω z r).eval (ω ^ i) = z := by
  simp only [fPoly, eval_add, eval_mul, eval_C, ZHpoly_eval_node hω, mul_zero, add_zero]
  exact interpolateH_eval hω _ hi

theorem gPoly_eval_node {s : ℕ} {ω : ZMod q} (hω : IsPrimitiveRoot ω s)
    (z α β : ZMod q) {i : ℕ} (hi : i < s) :
    (gPoly q s ω z α β).eval (ω ^ i) = ((gValNat s z.val i : ℕ) : ZMod q) := by
  simp only [gPoly, eval_add, eval_mul, eval_C, ZHpoly_eval_node hω, mul_zero, add_zero]
  exact interpolateH_eval hω _ hi

theorem selectorS_eval (s : ℕ) (x : ZMod q) :
    (selectorS q s).eval x = ∑ i ∈ Finset.range s, x ^ i := by
  rw [selectorS, eval_finset_sum]
  simp

theorem selectorS_eval_node {s : ℕ} {ω : ZMod q} (hω : IsPrimitiveRoot ω s)
    {i : ℕ} (h0 : 0 < i) (hi : i < s) :
    (selectorS q s).eval (ω ^ i) = 0 := by
  rw [selectorS_eval, geom_sum_eq (hω.pow_ne_one_of_pos_of_lt h0 hi)]
  rw [← pow_mul, mul_comm i s, pow_mul, hω.pow_eq_one, one_pow, sub_self, zero_div]

theorem selectorT_eval (s : ℕ) (ω x : ZMod q) :
    (selectorT q s ω).eval x = ∏ i ∈ Finset.range (s - 1), (x - ω ^ i) := by
  rw [selectorT, eval_prod]
  simp

theorem selectorT_eval_node {s : ℕ} (ω : ZMod q) {i : ℕ} (hi : i < s - 1) :
    (selectorT q s ω).eval (ω ^ i) = 0 := by
  rw [selectorT_eval]
  exact Finset.prod_eq_zero (Finset.mem_range.mpr hi) (sub_self _)

theorem gOmegaPoly_eval (ω : ZMod q) (gp : Polynomial (ZMod q)) (x : ZMod q) :
    (gOmegaPoly q ω gp).eval x = gp.eval (ω * x) := by
  rw [gOmegaPoly, eval_comp]
  simp

theorem gValNat_bit (s zv i : ℕ) :
    ((gValNat s zv i : ℕ) : ZMod q)
      = 2 * ((gValNat s zv (i + 1) : ℕ) : ZMod q)
        + (((zv % 2 ^ s) >>> i % 2 : ℕ) : ZMod q) := by
  have hnat : gValNat s zv i = 2 * gValNat s zv (i + 1) + (zv % 2 ^ s) >>> i % 2 := by
    simp only [gValNat, Nat.shiftRight_eq_div_pow]
    have hdd : zv % 2 ^ s / 2 ^ (i + 1) = zv % 2 ^ s / 2 ^ i / 2 := by
      rw [Nat.div_div_eq_div_mul, pow_succ]
    rw [hdd]
    omega
  rw [hnat]
  push_cast
  ring

theorem gValNat_top {s zv : ℕ} (hs : 0 < s) :
    gValNat s zv (s - 1) < 2 := by
  have h1 : zv % 2 ^ s < 2 ^ s := Nat.mod_lt _ (Nat.pos_pow_of_pos s (by norm_num))
  simp only [gValNat, Nat.shiftRight_eq_div_pow]
  have h2 : 2 ^ s = 2 ^ (s - 1) * 2 := by
    conv_lhs => rw [show s = (s - 1) + 1 by omega]
    ring
  rw [Nat.div_lt_iff_lt_mul (Nat.pos_pow_of_pos _ (by norm_num))]
  omega

theorem bit_mul_one_sub_bit {b : ℕ} (hb : b < 2) :
    ((b : ℕ) : ZMod q) * (1 - ((b : ℕ) : ZMod q)) = 0 := by
  interval_cases b <;> simp

theorem w2Poly_eval_node {s : ℕ} (hs : 0 < s) {ω : ZMod q}
    (hω : IsPrimitiveRoot ω s) (z α β : ZMod q) {i : ℕ} (hi : i < s) :
    (w2Poly q s ω (gPoly q s ω z α β)).eval (ω ^ i) = 0 := by
  have hgi := gPoly_eval_node hω z α β hi
  rw [w2Poly, eval_mul, eval_mul, eval_sub, eval_one, hgi]
  rcases Nat.lt_or_ge i (s - 1) with hlt | hge
  · rw [selectorT_eval_node ω hlt, mul_zero]
  · have hieq : i = s - 1 := by omega
    subst hieq
    rw [bit_mul_one_sub_bit (gValNat_top hs), zero_mul]

theorem w3Poly_eval_node {s : ℕ} {ω : ZMod q}
    (hω : IsPrimitiveRoot ω s) (z α β : ZMod q) {i : ℕ} (hi : i < s) :
    (w3Poly q s ω (gPoly q s ω z α β)).eval (ω ^ i) = 0 := by
  have hgi := gPoly_eval_node hω z α β hi
  simp only [w3Poly, eval_mul, eval_sub, eval_add, eval_one, eval_X, eval_C, eval_ofNat]
  rcases Nat.lt_or_ge i (s - 1) with hlt | hge
  · have hnode : (gOmegaPoly q ω (gPoly q s ω z α β)).eval (ω ^ i)
        = ((gValNat s z.val (i + 1) : ℕ) : ZMod q) := by
      rw [gOmegaPoly_eval, ← pow_succ' ω i]
      exact gPoly_eval_node hω z α β (by omega)
    rw [hnode, hgi]
    have hbit := gValNat_bit (q := q) s z.val i
    have hb2 : (z.val % 2 ^ s) >>> i % 2 < 2 := Nat.mod_lt _ (by norm_num)
    have hzero := bit_mul_one_sub_bit (q := q) hb2
    calc (((gValNat s z.val i : ℕ) : ZMod q) - 2 * ((gValNat s z.val (i + 1) : ℕ) : ZMod q))
          * (1 - ((gValNat s z.val i : ℕ) : ZMod q)
              + 2 * ((gValNat s z.val (i + 1) : ℕ) : ZMod q))
          * (ω ^ i - ω ^ (s - 1))
        = (((z.val % 2 ^ s) >>> i % 2 : ℕ) : ZMod q)
            * (1 - (((z.val % 2 ^ s) >>> i % 2 : ℕ) : ZMod q)) * (ω ^ i - ω ^ (s - 1)) := by
          rw [hbit]; ring
      _ = 0 := by rw [hzero, zero_mul]
  · have hieq : i = s - 1 := by omega
    subst hieq
    simp

theorem aggregatedW_eval_node {s : ℕ} (hs : 0 < s) {ω : ZMod q}
    (hω : IsPrimitiveRoot ω s) (z r α β τ : ZMod q)
    (hz : ((gValNat s z.val 0 : ℕ) : ZMod q) = z)
    {i : ℕ} (hi : i < s) :
    (aggregatedW q s ω τ (fPoly q s ω z r) (gPoly q s ω z α β)).eval (ω ^ i) = 0 := by
  have hgi := gPoly_eval_node hω z α β hi
  have hw1 : (w1Poly q s (fPoly q s ω z r) (gPoly q s ω z α β)).eval (ω ^ i) = 0 := by
    rw [w1Poly, eval_mul, eval_sub, hgi, fPoly_eval_node hω z r hi]
    rcases Nat.eq_zero_or_pos i with rfl | h0
    · rw [hz, sub_self, zero_mul]
    · rw [selectorS_eval_node hω h0 hi, mul_zero]
  have hw2 := w2Poly_eval_node hs hω z α β hi
  have hw3 := w3Poly_eval_node hω z α β hi
  rw [aggregatedW, eval_add, eval_add, eval_mul, eval_mul, hw1, hw2, hw3, eval_C, eval_C]
  ring

theorem ZHpoly_monic {s : ℕ} (hs : 0 < s) : (ZHpoly q s).Monic := by
  have := monic_X_pow_sub_C (1 : ZMod q) hs.ne'
  rwa [map_one] at this

theorem ZHpoly_dvd_of_eval_nodes {s : ℕ} (hs : 0 < s) {ω : ZMod q}
    (hω : IsPrimitiveRoot ω s) {p : Polynomial (ZMod q)}
    (hp : ∀ i < s, p.eval (ω ^ i) = 0) : ZHpoly q s ∣ p := by
  haveI : NeZero s := ⟨by omega⟩
  have h1 : ZHpoly q s = ∏ ζ ∈ nthRootsFinset s (ZMod q), (X - C ζ) := by
    rw [ZHpoly]
    exact X_pow_sub_one_eq_prod hs hω
  rw [h1]
  apply Finset.prod_dvd_of_coprime
  · intro a ha b hb hab
    exact isCoprime_X_sub_C_of_isUnit_sub (isUnit_iff_ne_zero.mpr (sub_ne_zero.mpr hab))
  · intro ζ hζ
    rw [dvd_iff_isRoot]
    obtain ⟨i, hi, hpow⟩ := hω.eq_pow_of_pow_eq_one ((mem_nthRootsFinset hs).mp hζ)
    rw [← hpow]
    exact hp i hi

theorem modByMonic_eq_zero_of_dvd {s : ℕ} (hs : 0 < s) {p : Polynomial (ZMod q)}
    (h : ZHpoly q s ∣ p) : p %ₘ ZHpoly q s = 0 :=
  (modByMonic_eq_zero_iff_dvd (ZHpoly_monic hs)).mpr h

theorem ZH_mul_div {s : ℕ} (hs : 0 < s) {p : Polynomial (ZMod q)}
    (h : ZHpoly q s ∣ p) : ZHpoly q s * (p /ₘ ZHpoly q s) = p := by
  have := modByMonic_add_div p (ZHpoly_monic (q := q) hs)
  rwa [modByMonic_eq_zero_of_dvd hs h, zero_add] at this

theorem arkDomainSize_pow (k : ℕ) : arkDomainSize (2 ^ k) = 2 ^ k := by
  rw [arkDomainSize, Nat.clog_pow 2 k (by norm_num)]

theorem interpolateH_natDegree_lt {s : ℕ} (hs : 0 < s) {ω : ZMod q}
    (hω : IsPrimitiveRoot ω s) (v : ℕ → ZMod q) :
    (interpolateH q s ω v).natDegree < s := by
  by_cases h : interpolateH q s ω v = 0
  · rw [h, natDegree_zero]
    exact hs
  · rw [natDegree_lt_iff_degree_lt h]
    have := Lagrange.degree_interpolate_lt v (nodes_injOn hω)
    rwa [Finset.card_range] at this

theorem ZHpoly_natDegree (s : ℕ) : (ZHpoly q s).natDegree = s := by
  rw [ZHpoly, ← C_1, natDegree_X_pow_sub_C]

theorem fPoly_natDegree_le {s : ℕ} (hs : 0 < s) {ω : ZMod q}
    (hω : IsPrimitiveRoot ω s) (z r : ZMod q) :
    (fPoly q s ω z r).natDegree ≤ s := by
  refine le_trans (natDegree_add_le _ _) (max_le ?_ ?_)
  · exact le_of_lt (interpolateH_natDegree_lt hs hω _)
  · refine le_trans natDegree_mul_le ?_
    rw [natDegree_C, ZHpoly_natDegree]
    omega

theorem gPoly_natDegree_le {s : ℕ} (hs : 0 < s) {ω : ZMod q}
    (hω : IsPrimitiveRoot ω s) (z α β : ZMod q) :
    (gPoly q s ω z α β).natDegree ≤ s + 1 := by
  refine le_trans (natDegree_add_le _ _) (max_le ?_ ?_)
  · exact le_trans (le_of_lt (interpolateH_natDegree_lt hs hω _)) (by omega)
  · refine le_trans natDegree_mul_le ?_
    rw [ZHpoly_natDegree]
    have h1 : (C α + C β * X).natDegree ≤ 1 := by
      refine le_trans (natDegree_add_le _ _) (max_le (by simp) ?_)
      refine le_trans natDegree_mul_le ?_
      simp
    omega

theorem selectorS_natDegree_le (s : ℕ) : (selectorS q s).natDegree ≤ s - 1 := by
  refine natDegree_sum_le_of_forall_le _ _ ?_
  intro i hi
  rw [natDegree_X_pow]
  exact Nat.le_sub_one_of_lt (Finset.mem_range.mp hi)

theorem selectorT_natDegree_le (s : ℕ) (ω : ZMod q) :
    (selectorT q s ω).natDegree ≤ s - 1 := by
  refine le_trans (natDegree_prod_le _ _) ?_
  have h1 : ∀ i ∈ Finset.range (s - 1), (X - C (ω ^ i)).natDegree = 1 := by
    intro i _
    exact natDegree_X_sub_C _
  rw [Finset.sum_congr rfl h1, Finset.sum_const, Finset.card_range, smul_eq_mul, mul_one]

theorem gOmegaPoly_natDegree_le (ω : ZMod q) (gp : Polynomial (ZMod q)) :
    (gOmegaPoly q ω gp).natDegree ≤ gp.natDegree := by
  refine le_trans natDegree_comp_le ?_
  have h1 : (C ω * X).natDegree ≤ 1 := by
    refine le_trans natDegree_mul_le ?_
    simp
  calc gp.natDegree * (C ω * X).natDegree ≤ gp.natDegree * 1 :=
        Nat.mul_le_mul_left _ h1
    _ = gp.natDegree := mul_one _

theorem aggregatedW_natDegree_le {s : ℕ} (hs : 0 < s) {ω : ZMod q}
    {fp gp : Polynomial (ZMod q)} (hfp : fp.natDegree ≤ s)
    (hgp : gp.natDegree ≤ s + 1) (τ : ZMod q) :
    (aggregatedW q s ω τ fp gp).natDegree ≤ 3 * s + 2 := by
  have hS := selectorS_natDegree_le (q := q) s
  have hT := selectorT_natDegree_le (q := q) s ω
  have hgom := gOmegaPoly_natDegree_le ω gp
  have hw1 : (w1Poly q s fp gp).natDegree ≤ 3 * s + 2 := by
    refine le_trans natDegree_mul_le ?_
    have h1 : (gp - fp).natDegree ≤ s + 1 :=
      le_trans (natDegree_sub_le _ _) (max_le hgp (le_trans hfp (Nat.le_succ s)))
    omega
  have hw2 : (w2Poly q s ω gp).natDegree ≤ 3 * s + 2 := by
    refine le_trans natDegree_mul_le ?_
    have h1 : (gp * (1 - gp)).natDegree ≤ 2 * s + 2 := by
      refine le_trans natDegree_mul_le ?_
      have h2 : ((1 : Polynomial (ZMod q)) - gp).natDegree ≤ s + 1 :=
        le_trans (natDegree_sub_le _ _) (max_le (by simp) hgp)
      omega
    omega
  have hw3 : (w3Poly q s ω gp).natDegree ≤ 3 * s + 2 := by
    refine le_trans natDegree_mul_le ?_
    have h1 : (gp - 2 * gOmegaPoly q ω gp).natDegree ≤ s + 1 := by
      refine le_trans (natDegree_sub_le _ _) (max_le hgp ?_)
      refine le_trans natDegree_mul_le ?_
      have h2 : (2 : Polynomial (ZMod q)).natDegree = 0 := natDegree_ofNat 2
      omega
    have h3 : (1 - gp + 2 * gOmegaPoly q ω gp).natDegree ≤ s + 1 := by
      refine le_trans (natDegree_add_le _ _) (max_le ?_ ?_)
      · exact le_trans (natDegree_sub_le _ _) (max_le (by simp) hgp)
      · refine le_trans natDegree_mul_le ?_
        have h2 : (2 : Polynomial (ZMod q)).natDegree = 0 := natDegree_ofNat 2
        omega
    have h4 : (X - C (ω ^ (s - 1))).natDegree = 1 := natDegree_X_sub_C _
    have h5 : ((gp - 2 * gOmegaPoly q ω gp) * (1 - gp + 2 * gOmegaPoly q ω gp)).natDegree
        ≤ 2 * s + 2 := by
      refine le_trans natDegree_mul_le ?_
      omega
    omega
  refine le_trans (natDegree_add_le _ _) (max_le (le_trans (natDegree_add_le _ _)
    (max_le hw1 ?_)) ?_)
  · refine le_trans natDegree_mul_le ?_
    rw [natDegree_C]
    omega
  · refine le_trans natDegree_mul_le ?_
    rw [natDegree_C]
    omega

theorem divByMonic_ZH_natDegree_le {s : ℕ} (hs : 0 < s) {p : Polynomial (ZMod q)}
    (hp : p.natDegree ≤ 3 * s + 2) :
    (p /ₘ ZHpoly q s).natDegree ≤ 2 * s + 2 := by
  rw [natDegree_divByMonic _ (ZHpoly_monic hs), ZHpoly_natDegree]
  omega

theorem wCapPoly_natDegree_le {s : ℕ} {fp qp : Polynomial (ZMod q)}
    (hfp : fp.natDegree ≤ s) (hqp : qp.natDegree ≤ 2 * s + 2) (ρ : ZMod q) :
    (wCapPoly q s fp qp ρ).natDegree ≤ 2 * s + 2 := by
  refine le_trans (natDegree_add_le _ _) (max_le ?_ ?_)
  · refine le_trans natDegree_mul_le ?_
    rw [natDegree_C]
    omega
  · refine le_trans natDegree_mul_le ?_
    rw [natDegree_C]
    omega

theorem kzgWitnessPoly_natDegree_le (p : Polynomial (ZMod q)) (u : ZMod q) :
    (kzgWitnessPoly q p u).natDegree ≤ p.natDegree := by
  rw [kzgWitnessPoly, natDegree_divByMonic _ (monic_X_sub_C u)]
  have h1 : (p - C (p.eval u)).natDegree ≤ p.natDegree :=
    le_trans (natDegree_sub_le _ _) (max_le (le_refl _) (by simp))
  omega

theorem kzgWitness_identity (p : Polynomial (ZMod q)) (u t : ZMod q) :
    (kzgWitnessPoly q p u).eval t * (t - u) = p.eval t - p.eval u := by
  have hdvd : (X - C u) ∣ (p - C (p.eval u)) := dvd_iff_isRoot.mpr (by simp)
  have hmod : (p - C (p.eval u)) %ₘ (X - C u) = 0 :=
    (modByMonic_eq_zero_iff_dvd (monic_X_sub_C u)).mpr hdvd
  have hmul := modByMonic_add_div (p - C (p.eval u)) (monic_X_sub_C u)
  rw [hmod, zero_add] at hmul
  have hev := congrArg (eval t) hmul
  simp only [eval_mul, eval_sub, eval_X, eval_C] at hev
  rw [kzgWitnessPoly]
  linear_combination hev

theorem evalsSum_eq_wCap_eval {s : ℕ} {ω τ : ZMod q}
    {fp gp qp : Polynomial (ZMod q)}
    (h : ZHpoly q s * qp = aggregatedW q s ω τ fp gp) (ρ : ZMod q) :
    evalsSum q s ω (gp.eval ρ) (gp.eval (ρ * ω)) ρ τ
      = (wCapPoly q s fp qp ρ).eval ρ := by
  have hev := congrArg (eval ρ) h
  simp only [aggregatedW, w1Poly, w2Poly, w3Poly, eval_add, eval_mul, eval_sub,
    eval_one, eval_X, eval_C, eval_ofNat, ZHpoly, selectorS_eval, selectorT_eval,
    gOmegaPoly_eval, eval_pow] at hev
  simp only [evalsSum, wCapPoly, eval_add, eval_mul, eval_C]
  rw [mul_comm ρ ω]
  linear_combination -hev

theorem aggregatedW_eval_one {s : ℕ} (hs : 0 < s) {ω : ZMod q}
    (hω : IsPrimitiveRoot ω s) (z r α β τ : ZMod q) :
    (aggregatedW q s ω τ (fPoly q s ω z r) (gPoly q s ω z α β)).eval 1
      = (((gValNat s z.val 0 : ℕ) : ZMod q) - z) * (s : ZMod q) := by
  have h1 : (1 : ZMod q) = ω ^ 0 := (pow_zero ω).symm
  rw [h1, aggregatedW, eval_add, eval_add, eval_mul, eval_mul, eval_C, eval_C,
    w2Poly_eval_node hs hω z α β hs, w3Poly_eval_node hω z α β hs, w1Poly, eval_mul,
    eval_sub, gPoly_eval_node hω z α β hs, fPoly_eval_node hω z r hs, selectorS_eval]
  have hsum1 : ∑ i ∈ Finset.range s, ((ω : ZMod q) ^ 0) ^ i = (s : ZMod q) := by
    simp
  rw [hsum1]
  ring

theorem domain_size_cast_ne_zero {s : ℕ} (hs : 0 < s) {ω : ZMod q}
    (hω : IsPrimitiveRoot ω s) : (s : ZMod q) ≠ 0 := by
  have hqp : Nat.Prime q := Fact.out
  have hω0 : ω ≠ 0 := by
    intro h0
    have hone := hω.pow_eq_one
    rw [h0, zero_pow hs.ne'] at hone
    exact zero_ne_one hone
  have hcard : ω ^ (q - 1) = 1 := ZMod.pow_card_sub_one_eq_one hω0
  have hdvd : s ∣ q - 1 := hω.dvd_of_pow_eq_one (q - 1) hcard
  have hq2 : 2 ≤ q := hqp.two_le
  have hle : s ≤ q - 1 := Nat.le_of_dvd (by omega) hdvd
  intro hcast
  rw [ZMod.natCast_zmod_eq_zero_iff_dvd] at hcast
  have := Nat.le_of_dvd hs hcast
  omega

theorem bind_err_ex {α β : Type} (e : RPError) (f : α → Except RPError β) :
    ((Except.error e : Except RPError α) >>= f) = .error e := rfl

theorem bind_ok_ex {α β : Type} (a : α) (f : α → Except RPError β) :
    ((Except.ok a : Except RPError α) >>= f) = f a := rfl

theorem bind_ne_err {α β : Type} (x : Except RPError α) (f : α → Except RPError β)
    (e : RPError) (hx : x ≠ .error e) (hf : ∀ a, f a ≠ .error e) :
    (x >>= f) ≠ .error e := by
  cases x with
  | ok a => exact hf a
  | error e2 =>
    intro hcon
    rw [bind_err_ex] at hcon
    injection hcon with h
    exact hx (by rw [h])

theorem bind_ok_ne_err {α β : Type} {x : Except RPError α} {a : α} (hx : x = .ok a)
    (f : α → Except RPError β) {e : RPError} (hf : f a ≠ .error e) :
    (x >>= f) ≠ .error e := by
  rw [hx, bind_ok_ex]
  exact hf

theorem wCapComm_eval {s : ℕ} (fp qp : Polynomial (ZMod q)) (ρ t : ZMod q) :
    wCapComm q s (fp.eval t) (qp.eval t) ρ = (wCapPoly q s fp qp ρ).eval t := by
  simp only [wCapPoly, eval_add, eval_mul, eval_C, wCapComm]

theorem verifyScalarKzg_eq_true {pw : PowersT q} {w P u v : ZMod q} :
    verifyScalarKzg q pw w P u v = true ↔ w * (pw.tau - u) = P - v := by
  rw [verifyScalarKzg]
  exact decide_eq_true_iff

theorem fPoly_zero (s : ℕ) (ω : ZMod q) : fPoly q s ω 0 0 = 0 := by
  rw [fPoly]
  have h1 : interpolateH q s ω (fun _ => 0) = 0 := by
    rw [interpolateH]
    exact map_zero _
  rw [h1, map_zero, zero_mul, add_zero]

theorem gPoly_zero (s : ℕ) (ω : ZMod q) : gPoly q s ω 0 0 0 = 0 := by
  haveI : NeZero q := ⟨(Fact.out (p := Nat.Prime q)).ne_zero⟩
  rw [gPoly]
  have hfun : (fun i => ((gValNat s (0 : ZMod q).val i : ℕ) : ZMod q)) = (0 : ℕ → ZMod q) := by
    funext i
    simp [gValNat, ZMod.val_zero]
  have h1 : interpolateH q s ω (fun i => ((gValNat s (0 : ZMod q).val i : ℕ) : ZMod q)) = 0 := by
    rw [interpolateH, hfun]
    exact map_zero _
  rw [h1]
  simp

theorem aggregatedW_zero (s : ℕ) (ω τ : ZMod q) : aggregatedW q s ω τ 0 0 = 0 := by
  simp [aggregatedW, w1Poly, w2Poly, w3Poly, gOmegaPoly]

theorem kzgWitnessPoly_zero (u : ZMod q) : kzgWitnessPoly q 0 u = 0 := by
  simp [kzgWitnessPoly, Polynomial.zero_divByMonic]

theorem wCapPoly_zero (s : ℕ) (ρ : ZMod q) : wCapPoly q s 0 0 ρ = 0 := by
  simp [wCapPoly]

theorem domainStep_ne_bad (TA n : ℕ) : domainStep TA n ≠ .error .badDomainSize := by
  rw [domainStep]
  split <;> simp

theorem commitG1_ne_bad (pw : PowersT q) (p : Polynomial (ZMod q)) :
    commitG1 q pw p ≠ .error .badDomainSize := by
  rw [commitG1]
  split <;> simp

theorem quotientStep_ne_bad (s : ℕ) (w : Polynomial (ZMod q)) :
    quotientStep q s w ≠ .error .badDomainSize := by
  rw [quotientStep]
  split <;> simp

end RangeProofLemmas

/-! ## Claims about the range proof -/

section RangeProofClaims

open Polynomial

/-- Claim C1: for every power-of-two `n = 2^k ≥ 2`, every scalar `z` with
`0 ≤ z < 2ⁿ`, every SRS with at least `4n` `G₁` powers, and every randomness
source (the draws `r`, `α`, `β`), the proof returned by
`RangeProof::new(z, n, powers, rng)` is accepted by
`RangeProof::verify(n, powers)`.  The hypotheses `hω`, `hTA` record that the
scalar field supports the radix-2 domains of sizes `n` and `2n` that
`ark_poly` constructs (as every BLS-family scalar field does for the sizes in
scope); the result holds for every transcript hash `hashS` and every SRS
trapdoor. -/
theorem c1_fresh_proof_verifies (q : ℕ) [Fact (Nat.Prime q)]
    (hashS : List (TData q) → ZMod q) (genOf : ℕ → ZMod q) (TA : ℕ)
    (n k' : ℕ) (hn : n = 2 ^ k') (h2 : 2 ≤ n)
    (hω : IsPrimitiveRoot (genOf n) n) (hTA : 2 * n ≤ 2 ^ TA)
    (z : ZMod q) (hz : z.val < 2 ^ n) (pw : PowersT q) (hpw : 4 * n ≤ pw.len)
    (r α β : ZMod q) :
    (rangeProofNew q hashS genOf TA z n pw r α β
      >>= fun prf => rangeProofVerify q hashS genOf TA prf n pw) = .ok true := by
  haveI : NeZero q := ⟨(Fact.out (p := Nat.Prime q)).ne_zero⟩
  have hs : 0 < n := by omega
  have hds : arkDomainSize n = n := by rw [hn]; exact arkDomainSize_pow k'
  have hds2 : arkDomainSize (2 * n) = 2 * n := by
    rw [hn, show (2 * 2 ^ k' : ℕ) = 2 ^ (k' + 1) by ring]
    exact arkDomainSize_pow (k' + 1)
  have hdom1 : domainStep TA n = .ok n := by
    rw [domainStep, hds, if_pos (by omega)]
  have hdom2 : domainStep TA (2 * n) = .ok (2 * n) := by
    rw [domainStep, hds2, if_pos (by omega)]
  have hfdeg : (fPoly q n (genOf n) z r).natDegree ≤ n := fPoly_natDegree_le hs hω z r
  have hgdeg : (gPoly q n (genOf n) z α β).natDegree ≤ n + 1 :=
    gPoly_natDegree_le hs hω z α β
  have hcf : commitG1 q pw (fPoly q n (genOf n) z r)
      = .ok ((fPoly q n (genOf n) z r).eval pw.tau) := by
    rw [commitG1, if_pos (by omega)]
  have hcg : commitG1 q pw (gPoly q n (genOf n) z α β)
      = .ok ((gPoly q n (genOf n) z α β).eval pw.tau) := by
    rw [commitG1, if_pos (by omega)]
  have hg1 : ((gValNat n z.val 0 : ℕ) : ZMod q) = z := by
    have h1 : gValNat n z.val 0 = z.val := by
      simp [gValNat, Nat.mod_eq_of_lt hz]
    rw [h1, ZMod.natCast_val, ZMod.cast_id]
  -- the aggregated constraint polynomial, for the challenge actually squeezed
  set fc := (fPoly q n (genOf n) z r).eval pw.tau with hfc
  set gc := (gPoly q n (genOf n) z α β).eval pw.tau with hgc
  set τ := tauChallenge q hashS n (genOf n) fc gc with hτdef
  set ρ := rhoChallenge q hashS n (genOf n) fc gc with hρdef
  set γ := gammaChallenge q hashS n (genOf n) fc gc with hγdef
  have hvan : ∀ i < n,
      (aggregatedW q n (genOf n) τ (fPoly q n (genOf n) z r)
        (gPoly q n (genOf n) z α β)).eval (genOf n ^ i) = 0 := fun i hi =>
    aggregatedW_eval_node hs hω z r α β τ hg1 hi
  have hdvd : ZHpoly q n ∣ aggregatedW q n (genOf n) τ (fPoly q n (genOf n) z r)
      (gPoly q n (genOf n) z α β) := ZHpoly_dvd_of_eval_nodes hs hω hvan
  have hmod : aggregatedW q n (genOf n) τ (fPoly q n (genOf n) z r)
      (gPoly q n (genOf n) z α β) %ₘ ZHpoly q n = 0 :=
    modByMonic_eq_zero_of_dvd hs hdvd
  have hquot : quotientStep q n (aggregatedW q n (genOf n) τ (fPoly q n (genOf n) z r)
        (gPoly q n (genOf n) z α β))
      = .ok (aggregatedW q n (genOf n) τ (fPoly q n (genOf n) z r)
          (gPoly q n (genOf n) z α β) /ₘ ZHpoly q n) := by
    rw [quotientStep, if_pos hmod]
  set qp := aggregatedW q n (genOf n) τ (fPoly q n (genOf n) z r)
      (gPoly q n (genOf n) z α β) /ₘ ZHpoly q n with hqpdef
  have hqmul : ZHpoly q n * qp = aggregatedW q n (genOf n) τ
      (fPoly q n (genOf n) z r) (gPoly q n (genOf n) z α β) := ZH_mul_div hs hdvd
  have hqdeg : qp.natDegree ≤ 2 * n + 2 :=
    divByMonic_ZH_natDegree_le hs (aggregatedW_natDegree_le hs hfdeg hgdeg τ)
  have hcq : commitG1 q pw qp = .ok (qp.eval pw.tau) := by
    rw [commitG1, if_pos (by omega)]
  have hshdeg : (kzgWitnessPoly q (gPoly q n (genOf n) z α β)
      (ρ * genOf n)).natDegree ≤ n + 1 :=
    le_trans (kzgWitnessPoly_natDegree_le _ _) hgdeg
  have hcsh : commitG1 q pw (kzgWitnessPoly q (gPoly q n (genOf n) z α β) (ρ * genOf n))
      = .ok ((kzgWitnessPoly q (gPoly q n (genOf n) z α β) (ρ * genOf n)).eval pw.tau) := by
    rw [commitG1, if_pos (by omega)]
  have hagdeg : (kzgWitnessPoly q (gPoly q n (genOf n) z α β
      + Polynomial.C γ * wCapPoly q n (fPoly q n (genOf n) z r) qp ρ) ρ).natDegree
      ≤ 2 * n + 2 := by
    refine le_trans (kzgWitnessPoly_natDegree_le _ _) ?_
    refine le_trans (natDegree_add_le _ _) (max_le (by omega) ?_)
    refine le_trans natDegree_mul_le ?_
    rw [natDegree_C]
    have := wCapPoly_natDegree_le hfdeg hqdeg ρ
    omega
  have hcag : commitG1 q pw (kzgWitnessPoly q (gPoly q n (genOf n) z α β
        + Polynomial.C γ * wCapPoly q n (fPoly q n (genOf n) z r) qp ρ) ρ)
      = .ok ((kzgWitnessPoly q (gPoly q n (genOf n) z α β
          + Polynomial.C γ * wCapPoly q n (fPoly q n (genOf n) z r) qp ρ) ρ).eval
            pw.tau) := by
    rw [commitG1, if_pos (by omega)]
  have hsum : evalsSum q n (genOf n) ((gPoly q n (genOf n) z α β).eval ρ)
      ((gPoly q n (genOf n) z α β).eval (ρ * genOf n)) ρ τ
      = (wCapPoly q n (fPoly q n (genOf n) z r) qp ρ).eval ρ :=
    evalsSum_eq_wCap_eval hqmul ρ
  rw [rangeProofNew]
  rw [hdom1, bind_ok_ex, hdom2, bind_ok_ex]
  simp only [hcf, bind_ok_ex, hcg, hquot, hcq, hcsh, hcag]
  rw [rangeProofVerify]
  rw [hdom1, bind_ok_ex]
  simp only [← hτdef, ← hρdef, ← hγdef]
  have hwcc : wCapComm q n fc (Polynomial.eval pw.tau qp) ρ
      = (wCapPoly q n (fPoly q n (genOf n) z r) qp ρ).eval pw.tau := by
    rw [hfc]
    exact wCapComm_eval _ _ _ _
  rw [hwcc]
  rw [if_neg (by rw [hsum]; exact fun hcon => hcon rfl)]
  have hb1 : verifyScalarKzg q pw
      ((kzgWitnessPoly q (gPoly q n (genOf n) z α β
        + Polynomial.C γ * wCapPoly q n (fPoly q n (genOf n) z r) qp ρ) ρ).eval pw.tau)
      (gc + γ * (wCapPoly q n (fPoly q n (genOf n) z r) qp ρ).eval pw.tau) ρ
      ((gPoly q n (genOf n) z α β).eval ρ
        + γ * (wCapPoly q n (fPoly q n (genOf n) z r) qp ρ).eval ρ) = true := by
    rw [verifyScalarKzg_eq_true]
    have hid := kzgWitness_identity (gPoly q n (genOf n) z α β
      + Polynomial.C γ * wCapPoly q n (fPoly q n (genOf n) z r) qp ρ) ρ pw.tau
    simp only [Polynomial.eval_add, Polynomial.eval_mul, Polynomial.eval_C] at hid
    rw [hgc]
    linear_combination hid
  have hb2 : verifyScalarKzg q pw
      ((kzgWitnessPoly q (gPoly q n (genOf n) z α β) (ρ * genOf n)).eval pw.tau) gc
      (ρ * genOf n) ((gPoly q n (genOf n) z α β).eval (ρ * genOf n)) = true := by
    rw [verifyScalarKzg_eq_true]
    have hid := kzgWitness_identity (gPoly q n (genOf n) z α β) (ρ * genOf n) pw.tau
    rw [hgc]
    linear_combination hid
  rw [hb1, hb2]
  rfl



/-- Claim C1, witness: a concrete instance over `ZMod 5` with `n = 2`,
`ω = 4 = −1`, `z = 3 < 2² = 4`, SRS trapdoor `2` with `8 = 4n` `G₁` powers,
constant transcript hash, and blinding draws `1, 2, 3`. -/
theorem c1_witness :
    2 = 2 ^ 1 ∧ (3 : ZMod 5).val < 2 ^ 2 ∧ 4 * 2 ≤ (8 : ℕ) ∧
      ((rangeProofNew 5 (fun _ => 2) (fun s => if s = 2 then 4 else 1) 32 3 2 ⟨2, 8⟩ 1 2 3
        >>= fun prf => rangeProofVerify 5 (fun _ => 2) (fun s => if s = 2 then 4 else 1)
          32 prf 2 ⟨2, 8⟩) = .ok true) := by
  refine ⟨rfl, by decide, by norm_num, ?_⟩
  have hω : IsPrimitiveRoot ((fun s => if s = 2 then (4 : ZMod 5) else 1) 2) 2 := by
    have h1 : IsPrimitiveRoot (-1 : ZMod 5) 2 := IsPrimitiveRoot.neg_one 5 (by norm_num)
    have h2 : ((fun s => if s = 2 then (4 : ZMod 5) else 1) 2) = -1 := by decide
    rwa [h2]
  exact c1_fresh_proof_verifies 5 (fun _ => 2) (fun s => if s = 2 then 4 else 1) 32 2 1
    rfl (le_refl 2) hω (by norm_num) 3 (by decide) ⟨2, 8⟩ (by norm_num) 1 2 3

/-- Claim C6: whenever the domain size fits the field's two-adicity (so the
`expect` does not panic), `RangeProof::verify` returns `true` if and only if
(1) the recomputed value of `W(ρ)` equals the revealed `w_cap_eval`,
(2) the aggregated KZG pairing check on `([G]₁ + γ·[w_cap]₁, ρ, g_eval +
γ·w_cap_eval)` passes, and (3) the shifted KZG pairing check on
`([G]₁, ρω, g_omega_eval)` passes; it returns `false` whenever any fails. -/
theorem c6_verify_iff_checks (q : ℕ) (hashS : List (TData q) → ZMod q)
    (genOf : ℕ → ZMod q) (TA : ℕ) (prf : RangeProofT q) (n : ℕ) (pw : PowersT q)
    (hdom : arkDomainSize n ≤ 2 ^ TA) :
    rangeProofVerify q hashS genOf TA prf n pw = .ok true ↔
      sumCheckHolds q hashS genOf prf n ∧ aggPairingHolds q hashS genOf prf n pw
        ∧ shiftedPairingHolds q hashS genOf prf n pw := by
  rw [rangeProofVerify, domainStep, if_pos hdom, bind_ok_ex, sumCheckHolds,
    aggPairingHolds, shiftedPairingHolds]
  by_cases hc : evalsSum q (arkDomainSize n) (genOf (arkDomainSize n))
      prf.evaluations.g prf.evaluations.gOmega
      (rhoChallenge q hashS n (genOf (arkDomainSize n)) prf.commitments.f
        prf.commitments.g)
      (tauChallenge q hashS n (genOf (arkDomainSize n)) prf.commitments.f
        prf.commitments.g)
      = prf.evaluations.wCap
  · rw [if_neg (fun hk => hk hc)]
    constructor
    · intro h
      have hb : (_ && _) = true := Except.ok.inj h
      rw [Bool.and_eq_true] at hb
      exact ⟨hc, hb.1, hb.2⟩
    · rintro ⟨-, h1, h2⟩
      rw [h1, h2]
      rfl
  · rw [if_pos hc]
    constructor
    · intro h
      exact absurd (Except.ok.inj h) (by simp)
    · rintro ⟨hsum, -, -⟩
      exact absurd hsum hc

/-- Claim C6, witness: a concrete instance over `ZMod 17` at `n = 2`, with the
hypothesis that the domain fits the two-adicity bound discharged concretely. -/
theorem c6_witness :
    arkDomainSize 2 ≤ 2 ^ 32 ∧
      (rangeProofVerify 17 (fun _ => 3) (fun _ => 2) 32 ⟨⟨1, 0, 0⟩, ⟨0, 0, 0⟩, ⟨0, 0⟩⟩ 2
          ⟨2, 8⟩ = .ok true ↔
        sumCheckHolds 17 (fun _ => 3) (fun _ => 2) ⟨⟨1, 0, 0⟩, ⟨0, 0, 0⟩, ⟨0, 0⟩⟩ 2
          ∧ aggPairingHolds 17 (fun _ => 3) (fun _ => 2) ⟨⟨1, 0, 0⟩, ⟨0, 0, 0⟩, ⟨0, 0⟩⟩ 2
              ⟨2, 8⟩
          ∧ shiftedPairingHolds 17 (fun _ => 3) (fun _ => 2)
              ⟨⟨1, 0, 0⟩, ⟨0, 0, 0⟩, ⟨0, 0⟩⟩ 2 ⟨2, 8⟩) := by
  have hdom : arkDomainSize 2 ≤ 2 ^ 32 := by
    rw [show (2 : ℕ) = 2 ^ 1 from rfl, arkDomainSize_pow]
    norm_num
  exact ⟨hdom, c6_verify_iff_checks 17 (fun _ => 3) (fun _ => 2) 32
    ⟨⟨1, 0, 0⟩, ⟨0, 0, 0⟩, ⟨0, 0⟩⟩ 2 ⟨2, 8⟩ hdom⟩

/-- Claim C2, amended: `RangeProof::new` decomposes `z` over the domain the
`ark_poly` constructor actually builds, of size `s = arkDomainSize n` (the
next power of two at or above `n`, which is `n` itself whenever `n` is a
nonzero power of two).  Whenever the integer representative of `z` is at
least `2^s` (and the SRS can commit `f` and `g`), the aggregated constraint
polynomial `W` fails to divide exactly by `Z_H` — its value at `1 ∈ H` is
`(z mod 2^s − z)·s ≠ 0` — so proof construction aborts during quotient
computation with `RangeProofInvalidWitness` (modelled; the Rust panics with
"remainder poly should be zero") and no proof value is produced.  For `n`
zero or not a power of two and `2^n ≤ z.val < 2^s`, construction instead
succeeds — see the counterexample. -/
theorem c2_amended_out_of_range_aborts (q : ℕ) [Fact (Nat.Prime q)]
    (hashS : List (TData q) → ZMod q) (genOf : ℕ → ZMod q) (TA : ℕ) (n : ℕ)
    (hTAn : arkDomainSize n ≤ 2 ^ TA) (hTA2 : arkDomainSize (2 * n) ≤ 2 ^ TA)
    (hω : IsPrimitiveRoot (genOf (arkDomainSize n)) (arkDomainSize n))
    (z : ZMod q) (hz : 2 ^ arkDomainSize n ≤ z.val)
    (pw : PowersT q) (hpw : arkDomainSize n + 2 ≤ pw.len) (r α β : ZMod q) :
    rangeProofNew q hashS genOf TA z n pw r α β = .error .rangeProofInvalidWitness := by
  haveI : NeZero q := ⟨(Fact.out (p := Nat.Prime q)).ne_zero⟩
  have hs : 0 < arkDomainSize n := by
    rw [arkDomainSize]
    exact pow_pos (by norm_num) _
  have hdom1 : domainStep TA n = .ok (arkDomainSize n) := by
    rw [domainStep, if_pos hTAn]
  have hdom2 : domainStep TA (2 * n) = .ok (arkDomainSize (2 * n)) := by
    rw [domainStep, if_pos hTA2]
  have hfdeg : (fPoly q (arkDomainSize n) (genOf (arkDomainSize n)) z r).natDegree
      ≤ arkDomainSize n := fPoly_natDegree_le hs hω z r
  have hgdeg : (gPoly q (arkDomainSize n) (genOf (arkDomainSize n)) z α β).natDegree
      ≤ arkDomainSize n + 1 := gPoly_natDegree_le hs hω z α β
  have hcf : commitG1 q pw (fPoly q (arkDomainSize n) (genOf (arkDomainSize n)) z r)
      = .ok ((fPoly q (arkDomainSize n) (genOf (arkDomainSize n)) z r).eval pw.tau) := by
    rw [commitG1, if_pos (by omega)]
  have hcg : commitG1 q pw (gPoly q (arkDomainSize n) (genOf (arkDomainSize n)) z α β)
      = .ok ((gPoly q (arkDomainSize n) (genOf (arkDomainSize n)) z α β).eval pw.tau) := by
    rw [commitG1, if_pos (by omega)]
  have hm : ((gValNat (arkDomainSize n) z.val 0 : ℕ) : ZMod q) ≠ z := by
    intro h
    have hv := congrArg ZMod.val h
    have h0 : gValNat (arkDomainSize n) z.val 0 = z.val % 2 ^ arkDomainSize n := by
      simp [gValNat]
    have hlt : z.val % 2 ^ arkDomainSize n < 2 ^ arkDomainSize n :=
      Nat.mod_lt _ (pow_pos (by norm_num) _)
    have hzq : z.val < q := ZMod.val_lt z
    rw [h0, ZMod.val_natCast, Nat.mod_eq_of_lt (by omega)] at hv
    omega
  have hquot : ∀ τ : ZMod q,
      quotientStep q (arkDomainSize n)
          (aggregatedW q (arkDomainSize n) (genOf (arkDomainSize n)) τ
            (fPoly q (arkDomainSize n) (genOf (arkDomainSize n)) z r)
            (gPoly q (arkDomainSize n) (genOf (arkDomainSize n)) z α β))
        = .error .rangeProofInvalidWitness := by
    intro τ
    rw [quotientStep, if_neg]
    intro hmod
    have hdvd := (Polynomial.modByMonic_eq_zero_iff_dvd (ZHpoly_monic hs)).mp hmod
    obtain ⟨c, hc⟩ := hdvd
    have hWne : (aggregatedW q (arkDomainSize n) (genOf (arkDomainSize n)) τ
        (fPoly q (arkDomainSize n) (genOf (arkDomainSize n)) z r)
        (gPoly q (arkDomainSize n) (genOf (arkDomainSize n)) z α β)).eval 1 ≠ 0 := by
      rw [aggregatedW_eval_one hs hω z r α β τ]
      exact mul_ne_zero (sub_ne_zero.mpr hm) (domain_size_cast_ne_zero hs hω)
    apply hWne
    rw [hc, Polynomial.eval_mul, ZHpoly_eval, one_pow, sub_self, zero_mul]
  rw [rangeProofNew, hdom1, bind_ok_ex, hdom2, bind_ok_ex]
  simp only [hcf, hcg, bind_ok_ex]
  rw [hquot, bind_err_ex]

/-- Claim C2, amended, witness: over `ZMod 5` with `n = 2` (so `s = 2`) and
`z = 4` whose representative `4` is at least `2²`, construction aborts with
`RangeProofInvalidWitness`. -/
theorem c2_amended_witness :
    2 ^ arkDomainSize 2 ≤ (4 : ZMod 5).val ∧
      rangeProofNew 5 (fun _ => 2) (fun s => if s = 2 then 4 else 1) 32 4 2 ⟨2, 8⟩ 1 2 3
        = .error .rangeProofInvalidWitness := by
  have hark : arkDomainSize 2 = 2 := by
    rw [show (2 : ℕ) = 2 ^ 1 from rfl, arkDomainSize_pow]
  have hark4 : arkDomainSize (2 * 2) = 4 := by
    rw [show (2 * 2 : ℕ) = 2 ^ 2 from rfl, arkDomainSize_pow]
    norm_num
  have hω : IsPrimitiveRoot
      ((fun s => if s = 2 then (4 : ZMod 5) else 1) (arkDomainSize 2)) (arkDomainSize 2) := by
    rw [hark]
    have h1 : IsPrimitiveRoot (-1 : ZMod 5) 2 := IsPrimitiveRoot.neg_one 5 (by norm_num)
    have h2 : ((fun s => if s = 2 then (4 : ZMod 5) else 1) 2) = -1 := by decide
    rwa [h2]
  refine ⟨by rw [hark]; decide, ?_⟩
  exact c2_amended_out_of_range_aborts 5 (fun _ => 2) (fun s => if s = 2 then 4 else 1) 32 2
    (by rw [hark]; norm_num) (by rw [hark4]; norm_num) hω 4 (by rw [hark]; decide)
    ⟨2, 8⟩ (by rw [hark]; norm_num) 1 2 3

/-- Claim C2, counterexample: at `n = 0` the `ark_poly` domain silently has
size `1`, so with `z = 1` — which satisfies the claim's premise `z ≥ 2⁰ = 1`
— the low bit alone is decomposed, the aggregated constraint vanishes on the
size-1 domain, the quotient is exact, and `RangeProof::new` does not abort
with `RangeProofInvalidWitness`. -/
theorem c2_counterexample :
    2 ^ (0 : ℕ) ≤ (1 : ZMod 5).val ∧
      rangeProofNew 5 (fun _ => 2) (fun _ => 1) 32 1 0 ⟨2, 8⟩ 0 0 0
        ≠ .error .rangeProofInvalidWitness := by
  refine ⟨by decide, ?_⟩
  have hark0 : arkDomainSize 0 = 1 := by
    rw [arkDomainSize, Nat.clog_zero_right, pow_zero]
  have hs : (0 : ℕ) < 1 := one_pos
  have hω : IsPrimitiveRoot (1 : ZMod 5) 1 := IsPrimitiveRoot.one
  have hdom1 : domainStep 32 0 = .ok 1 := by
    rw [domainStep, hark0, if_pos (by norm_num)]
  have hdom2 : domainStep 32 (2 * 0) = .ok 1 := by
    rw [show (2 * 0 : ℕ) = 0 from rfl]
    exact hdom1
  have hfdeg : (fPoly 5 1 (1 : ZMod 5) 1 0).natDegree ≤ 1 := fPoly_natDegree_le hs hω 1 0
  have hgdeg : (gPoly 5 1 (1 : ZMod 5) 1 0 0).natDegree ≤ 2 := gPoly_natDegree_le hs hω 1 0 0
  have hcommit : ∀ p : Polynomial (ZMod 5), p.natDegree ≤ 6 →
      commitG1 5 ⟨2, 8⟩ p = .ok (p.eval 2) := by
    intro p hp
    have hlen : ({ tau := 2, len := 8 } : PowersT 5).len = 8 := rfl
    rw [commitG1, if_pos (by rw [hlen]; omega)]
  have hg1 : ((gValNat 1 (1 : ZMod 5).val 0 : ℕ) : ZMod 5) = 1 := by decide
  have hquot : ∀ τ : ZMod 5,
      quotientStep 5 1 (aggregatedW 5 1 (1 : ZMod 5) τ (fPoly 5 1 (1 : ZMod 5) 1 0)
          (gPoly 5 1 (1 : ZMod 5) 1 0 0))
        = .ok (aggregatedW 5 1 (1 : ZMod 5) τ (fPoly 5 1 (1 : ZMod 5) 1 0)
          (gPoly 5 1 (1 : ZMod 5) 1 0 0) /ₘ ZHpoly 5 1) := by
    intro τ
    rw [quotientStep, if_pos (modByMonic_eq_zero_of_dvd hs (ZHpoly_dvd_of_eval_nodes hs hω
      (fun i hi => aggregatedW_eval_node hs hω 1 0 0 0 τ hg1 hi)))]
  have hqdeg : ∀ τ : ZMod 5,
      (aggregatedW 5 1 (1 : ZMod 5) τ (fPoly 5 1 (1 : ZMod 5) 1 0)
        (gPoly 5 1 (1 : ZMod 5) 1 0 0) /ₘ ZHpoly 5 1).natDegree ≤ 4 := fun τ =>
    divByMonic_ZH_natDegree_le hs (aggregatedW_natDegree_le hs hfdeg hgdeg τ)
  rw [rangeProofNew]
  refine bind_ok_ne_err hdom1 _ ?_
  refine bind_ok_ne_err hdom2 _ ?_
  refine bind_ok_ne_err (hcommit _ ?_) _ ?_
  · omega
  refine bind_ok_ne_err (hcommit _ ?_) _ ?_
  · omega
  refine bind_ok_ne_err (hquot _) _ ?_
  refine bind_ok_ne_err (hcommit _ ?_) _ ?_
  · exact le_trans (hqdeg _) (by norm_num)
  refine bind_ok_ne_err (hcommit _ ?_) _ ?_
  · exact le_trans (kzgWitnessPoly_natDegree_le _ _) (by omega)
  refine bind_ok_ne_err (hcommit _ ?_) _ ?_
  · refine le_trans (kzgWitnessPoly_natDegree_le _ _) ?_
    refine le_trans (Polynomial.natDegree_add_le _ _)
      (max_le (le_trans hgdeg (by norm_num)) ?_)
    refine le_trans Polynomial.natDegree_mul_le ?_
    rw [Polynomial.natDegree_C, zero_add]
    exact le_trans (wCapPoly_natDegree_le hfdeg (hqdeg _) _) (by norm_num)
  simp

/-- Claim C9, amended: for `n` zero or not a power of two, neither
`RangeProof::new` nor `RangeProof::verify` fails with `BadDomainSize`.
Instead, the `ark_poly` domain constructor silently substitutes the next
power of two as the domain size (`1` for `n = 0`), so as long as that size
fits the field's two-adicity the calls proceed with the substituted size
(`verify` returns an ordinary boolean); only when the rounded size exceeds
`2^TA` do both panic via `.expect("valid domain")` — a panic, not an
ordinary error result. -/
theorem c9_amended_domain_rounding (q : ℕ) [Fact (Nat.Prime q)]
    (hashS : List (TData q) → ZMod q) (genOf : ℕ → ZMod q) (TA : ℕ)
    (z : ZMod q) (n : ℕ) (pw : PowersT q) (r α β : ZMod q) (prf : RangeProofT q)
    (hn : n = 0 ∨ ∀ k, n ≠ 2 ^ k) :
    arkDomainSize n ≠ n
      ∧ rangeProofNew q hashS genOf TA z n pw r α β ≠ .error .badDomainSize
      ∧ rangeProofVerify q hashS genOf TA prf n pw ≠ .error .badDomainSize
      ∧ (arkDomainSize n ≤ 2 ^ TA →
          ∃ b, rangeProofVerify q hashS genOf TA prf n pw = .ok b)
      ∧ (2 ^ TA < arkDomainSize n →
          rangeProofVerify q hashS genOf TA prf n pw = .error .panicValidDomain
            ∧ rangeProofNew q hashS genOf TA z n pw r α β
                = .error .panicValidDomain) := by
  refine ⟨?_, ?_, ?_, ?_, ?_⟩
  · rcases hn with rfl | hn
    · rw [arkDomainSize, Nat.clog_zero_right, pow_zero]
      omega
    · intro h
      exact hn (Nat.clog 2 n) h.symm
  · rw [rangeProofNew]
    refine bind_ne_err _ _ _ (domainStep_ne_bad _ _) fun s => ?_
    refine bind_ne_err _ _ _ (domainStep_ne_bad _ _) fun s2 => ?_
    refine bind_ne_err _ _ _ (commitG1_ne_bad _ _) fun fc => ?_
    refine bind_ne_err _ _ _ (commitG1_ne_bad _ _) fun gc => ?_
    refine bind_ne_err _ _ _ (quotientStep_ne_bad _ _) fun qp => ?_
    refine bind_ne_err _ _ _ (commitG1_ne_bad _ _) fun qc => ?_
    refine bind_ne_err _ _ _ (commitG1_ne_bad _ _) fun sh => ?_
    refine bind_ne_err _ _ _ (commitG1_ne_bad _ _) fun ag => ?_
    simp
  · cases h : domainStep TA n with
    | error e =>
      rw [rangeProofVerify, h, bind_err_ex]
      intro hcon
      injection hcon with h2
      exact domainStep_ne_bad TA n (by rw [h, h2])
    | ok s =>
      rw [rangeProofVerify, h, bind_ok_ex]
      simp only []
      split <;> simp
  · intro hfit
    rw [rangeProofVerify, domainStep, if_pos hfit, bind_ok_ex]
    simp only []
    split
    · exact ⟨false, rfl⟩
    · exact ⟨_, rfl⟩
  · intro hbig
    have hd : domainStep TA n = .error .panicValidDomain := by
      rw [domainStep, if_neg (by omega)]
    constructor
    · rw [rangeProofVerify, hd, bind_err_ex]
    · rw [rangeProofNew, hd, bind_err_ex]

/-- Claim C9, amended, witness: at the non-power-of-two size `n = 7` (domain
rounded to `8`), neither call produces `BadDomainSize`. -/
theorem c9_amended_witness :
    arkDomainSize 7 ≠ 7 ∧
      rangeProofVerify 17 (fun _ => 3) (fun _ => 2) 32 ⟨⟨1, 0, 0⟩, ⟨0, 0, 0⟩, ⟨0, 0⟩⟩ 7
          ⟨2, 32⟩ ≠ .error .badDomainSize := by
  have h7 : ∀ k : ℕ, (7 : ℕ) ≠ 2 ^ k := by
    intro k h
    rcases Nat.lt_or_ge k 3 with hk | hk
    · interval_cases k <;> simp_all
    · have h8 : (8 : ℕ) ≤ 2 ^ k := by
        calc (8 : ℕ) = 2 ^ 3 := by norm_num
          _ ≤ 2 ^ k := Nat.pow_le_pow_right (by norm_num) hk
      omega
  have h := c9_amended_domain_rounding 17 (fun _ => 3) (fun _ => 2) 32 0 7 ⟨2, 32⟩ 0 0 0
    ⟨⟨1, 0, 0⟩, ⟨0, 0, 0⟩, ⟨0, 0⟩⟩ (Or.inr h7)
  exact ⟨h.1, h.2.2.1⟩

/-- Claim C9, counterexample: at `n = 7` — neither zero nor a power of two —
`RangeProof::verify` does not fail with `BadDomainSize`: the `ark_poly`
constructor silently substitutes domain size `8 = nextPowerOfTwo 7` and the
call returns the ordinary boolean result `false`. -/
theorem c9_counterexample :
    arkDomainSize 7 = 8 ∧
      rangeProofVerify 17 (fun _ => 3) (fun _ => 2) 32 ⟨⟨1, 0, 0⟩, ⟨0, 0, 0⟩, ⟨0, 0⟩⟩ 7
        ⟨2, 32⟩ = .ok false := by
  have hclog : Nat.clog 2 7 = 3 := by
    have hle : Nat.clog 2 7 ≤ 3 := (Nat.le_pow_iff_clog_le (by norm_num)).mp (by norm_num)
    have hge : ¬ Nat.clog 2 7 ≤ 2 := fun hcon =>
      absurd ((Nat.le_pow_iff_clog_le (by norm_num)).mpr hcon) (by norm_num)
    omega
  have h78 : arkDomainSize 7 = 8 := by
    rw [arkDomainSize, hclog]
    norm_num
  refine ⟨h78, ?_⟩
  rw [rangeProofVerify, domainStep, h78, if_pos (by norm_num), bind_ok_ex]
  decide

/-- Claim C7, amended: the aggregation challenge `γ` is squeezed from the
same transcript state as `τ` and `ρ` — the state that absorbed only the
domain separator, `n`, `ω`, `[F]₁`, `[G]₁` and the squeeze labels
(`mod.rs` lines 60-69 have no `update` call between the commitments and the
three `next_scalar` calls).  In particular the only scalar ever absorbed is
`ω`: the revealed evaluations `g(ρ)`, `g(ρω)`, `w_cap(ρ)` are never added to
the Fiat-Shamir transcript, on either the prover or the verifier side (which
is why the two sides still match). -/
theorem c7_amended_gamma_state (q : ℕ) (hashS : List (TData q) → ZMod q) (n : ℕ)
    (ω fc gc : ZMod q) :
    gammaChallenge q hashS n ω fc gc = hashS (gammaTranscript q n ω fc gc)
      ∧ gammaTranscript q n ω fc gc
          = [.bytes SEP, .bytes (toLeBytes8 n), .scalar ω, .point fc, .point gc,
             .bytes labelTau, .bytes labelRho, .bytes labelAgg]
      ∧ ∀ x : ZMod q, TData.scalar x ∈ gammaTranscript q n ω fc gc → x = ω := by
  refine ⟨rfl, rfl, ?_⟩
  intro x hx
  simp only [gammaTranscript, baseTranscript, List.cons_append, List.nil_append,
    List.mem_cons, List.not_mem_nil, or_false] at hx
  rcases hx with h | h | h | h | h | h | h | h <;> simp_all

/-- Claim C7, counterexample: an honest prover run (over `ZMod 5`, `n = 2`,
`z = 0`, zero blinding) produces the proof whose three revealed evaluations
are the scalar `0`; that scalar is not an element of the transcript state
`γ` was squeezed from (nor of the base absorb list), so `γ` is not sampled
after absorbing the evaluations. -/
theorem c7_counterexample :
    rangeProofNew 5 (fun _ => 2) (fun _ => 4) 32 0 2 ⟨2, 8⟩ 0 0 0
        = .ok ⟨⟨0, 0, 0⟩, ⟨0, 0, 0⟩, ⟨0, 0⟩⟩
      ∧ TData.scalar (0 : ZMod 5) ∉ gammaTranscript 5 2 4 0 0
      ∧ TData.scalar (0 : ZMod 5) ∉ baseTranscript 5 2 4 0 0 := by
  refine ⟨?_, by decide, by decide⟩
  have hark : arkDomainSize 2 = 2 := by
    rw [show (2 : ℕ) = 2 ^ 1 from rfl, arkDomainSize_pow]
  have hark4 : arkDomainSize (2 * 2) = 4 := by
    rw [show (2 * 2 : ℕ) = 2 ^ 2 from rfl, arkDomainSize_pow]
    norm_num
  have hdom1 : domainStep 32 2 = .ok 2 := by
    rw [domainStep, hark, if_pos (by norm_num)]
  have hdom2 : domainStep 32 (2 * 2) = .ok 4 := by
    rw [domainStep, hark4, if_pos (by norm_num)]
  have hcommit0 : commitG1 5 ⟨2, 8⟩ (0 : Polynomial (ZMod 5)) = .ok 0 := by
    rw [commitG1, if_pos (by simp)]
    simp
  have hquot0 : quotientStep 5 2 (0 : Polynomial (ZMod 5)) = .ok 0 := by
    rw [quotientStep, if_pos (by simp)]
    simp [Polynomial.zero_divByMonic]
  rw [rangeProofNew]
  simp only [fPoly_zero, gPoly_zero, hdom1, hdom2, hcommit0, bind_ok_ex,
    aggregatedW_zero, hquot0, kzgWitnessPoly_zero, wCapPoly_zero, Polynomial.eval_zero,
    mul_zero, add_zero, zero_add]

/-! ## Claims about the ElGamal scheme -/

/-- Claim C3: for every secret key `sk`, every message `m` with
`0 ≤ m < 2³²`, and every nonce `r`, brute-force decryption of an honest
encryption under the matching public key `sk·g` recovers exactly the
plaintext: `decrypt(encrypt_with_randomness(m, sk·g, r), sk) = m`.
The hypothesis `4294967295 < q` records that the group order exceeds the
`u32` plaintext space, as it does for every pairing curve. -/
theorem c3_decrypt_encrypt_roundtrip (q : ℕ) (hq : 4294967295 < q)
    (sk r m : ZMod q) (hm : m.val < 4294967296) :
    decrypt q (encryptWithRandomness q m (sk * genG q) r) sk = m := by
  have hexp : decryptExp q (encryptWithRandomness q m (sk * genG q) r) sk = m := by
    simp only [decryptExp, encryptWithRandomness, genG]
    ring
  rw [decrypt, hexp]
  haveI : NeZero q := ⟨by omega⟩
  have hcast : ((m.val : ℕ) : ZMod q) = m := by
    rw [ZMod.natCast_val, ZMod.cast_id]
  rw [← hcast]
  exact bruteForce_finds hq (by omega)

/-- Claim C3, witness: a concrete instance over the prime modulus
`4294967311 = 2³² + 15`. -/
theorem c3_witness :
    4294967295 < 4294967311 ∧ ((3 : ZMod 4294967311)).val < 4294967296 ∧
      decrypt 4294967311
          (encryptWithRandomness 4294967311 3 ((5 : ZMod 4294967311) * genG 4294967311) 7) 5
        = 3 :=
  ⟨by norm_num, by decide,
    c3_decrypt_encrypt_roundtrip 4294967311 (by norm_num) 5 7 3 (by decide)⟩

/-- The component-wise sum of a list of honest encryptions, computed by
induction from `Cipher`'s `Add`. -/
theorem sumCiphers_encrypt (q : ℕ) (sk : ZMod q) (l : List (ZMod q × ZMod q)) :
    sumCiphers q (l.map fun mr => encryptWithRandomness q mr.1 (sk * genG q) mr.2)
      = ⟨(l.map Prod.snd).sum * genG q,
          (l.map Prod.fst).sum * genG q + (sk * genG q) * (l.map Prod.snd).sum⟩ := by
  induction l with
  | nil =>
    simp [sumCiphers, zeroCipher]
  | cons hd tl ih =>
    simp only [List.map_cons, sumCiphers, List.foldr_cons] at ih ⊢
    rw [ih]
    simp only [Cipher.addC, encryptWithRandomness, List.sum_cons, genG, Cipher.mk.injEq]
    constructor <;> ring

/-- Claim C4: for every secret key `sk` and every finite list of
message/nonce pairs `(mᵢ, rᵢ)`, the component-wise sum (via `Cipher`'s `Add`)
of the ciphertexts `encrypt_with_randomness(mᵢ, sk·g, rᵢ)` has first
component `(Σ rᵢ)·g`, and `decrypt_exp` of the sum under `sk` equals
`(Σ mᵢ)·g`. -/
theorem c4_additive_homomorphism (q : ℕ) (sk : ZMod q)
    (l : List (ZMod q × ZMod q)) :
    (sumCiphers q (l.map fun mr => encryptWithRandomness q mr.1 (sk * genG q) mr.2)).c0
        = (l.map Prod.snd).sum * genG q
      ∧ decryptExp q
          (sumCiphers q (l.map fun mr => encryptWithRandomness q mr.1 (sk * genG q) mr.2)) sk
        = (l.map Prod.fst).sum * genG q := by
  rw [sumCiphers_encrypt]
  refine ⟨rfl, ?_⟩
  simp only [decryptExp, genG]
  ring

/-- Claim C8, counterexample: over the prime modulus `4294967311 = 2³² + 15`,
the point with discrete logarithm `2³²` (which is not `m*·g` for any
`m* < 2³²`, as its canonical representative shows) makes `decrypt` return a
value different from the claimed sentinel `2³²`: the loop exits with
`u32::MAX = 2³² − 1` instead. -/
theorem c8_counterexample :
    (decryptExp 4294967311 ⟨0, ((4294967296 : ℕ) : ZMod 4294967311)⟩ 0).val = 4294967296
      ∧ decrypt 4294967311 ⟨0, ((4294967296 : ℕ) : ZMod 4294967311)⟩ 0
          ≠ ((4294967296 : ℕ) : ZMod 4294967311) := by
  have hexp : decryptExp 4294967311 ⟨0, ((4294967296 : ℕ) : ZMod 4294967311)⟩ 0
      = ((4294967296 : ℕ) : ZMod 4294967311) := by
    simp [decryptExp]
  constructor
  · rw [hexp, ZMod.val_natCast_of_lt (by norm_num)]
  · have hdec : decrypt 4294967311 ⟨0, ((4294967296 : ℕ) : ZMod 4294967311)⟩ 0
        = maxU32 4294967311 := by
      rw [decrypt, hexp, bruteForce]
      have h0 : ((0 : ℕ) : ZMod 4294967311) = 0 := Nat.cast_zero
      rw [← h0]
      refine bruteForceAux_nomatch (by norm_num) ?_ 4294967295 0 (by omega) (by omega)
      intro k hk h
      have hv := congrArg ZMod.val h
      rw [ZMod.val_natCast_of_lt (by omega), ZMod.val_natCast_of_lt (by norm_num)] at hv
      omega
    rw [hdec, maxU32]
    intro h
    have hv := congrArg ZMod.val h
    rw [ZMod.val_natCast_of_lt (by norm_num), ZMod.val_natCast_of_lt (by norm_num)] at hv
    omega

/-- Claim C8, amended: when the decrypted point is not `m*·g` for any
`m* < 2³²`, `decrypt` returns the sentinel `u32::MAX = 2³² − 1` (not `2³²` as
claimed): the loop guard `exponent < max` stops incrementing at
`max = C::ScalarField::from(u32::MAX)` and that value is returned. -/
theorem c8_amended_sentinel (q : ℕ) (hq : 4294967295 < q)
    (c : Cipher q) (sk : ZMod q)
    (hd : ∀ k : ℕ, k < 4294967296 → ((k : ℕ) : ZMod q) * genG q ≠ decryptExp q c sk) :
    decrypt q c sk = maxU32 q ∧ maxU32 q = ((4294967295 : ℕ) : ZMod q) := by
  refine ⟨?_, rfl⟩
  rw [decrypt, bruteForce]
  have h0 : ((0 : ℕ) : ZMod q) = 0 := Nat.cast_zero
  rw [← h0]
  refine bruteForceAux_nomatch hq ?_ 4294967295 0 (by omega) (by omega)
  intro k hk h
  exact hd k (by omega) (by simpa [genG] using h)

/-- Claim C8, amended, witness: the same concrete instance as the
counterexample, through the amended theorem. -/
theorem c8_amended_witness :
    decrypt 4294967311 ⟨0, ((4294967296 : ℕ) : ZMod 4294967311)⟩ 0 = maxU32 4294967311
      ∧ maxU32 4294967311 = ((4294967295 : ℕ) : ZMod 4294967311) :=
  c8_amended_sentinel 4294967311 (by norm_num) _ 0 (by
    intro k hk h
    have hexp : decryptExp 4294967311 ⟨0, ((4294967296 : ℕ) : ZMod 4294967311)⟩ 0
        = ((4294967296 : ℕ) : ZMod 4294967311) := by
      simp [decryptExp]
    rw [hexp, genG, mul_one] at h
    have hv := congrArg ZMod.val h
    rw [ZMod.val_natCast_of_lt (by omega), ZMod.val_natCast_of_lt (by norm_num)] at hv
    omega)

/-- Claim C10: `brute_force` terminates on every input: the loop counter
starts at zero, increases by one per iteration, and the guard forces exit by
the time the counter reaches `2³² − 1`, so `2³² − 1` iterations always
suffice — giving the loop any further fuel never changes the result, and a
scalar is always returned. -/
theorem c10_brute_force_terminates (q : ℕ) (d : ZMod q) (extra : ℕ) :
    bruteForceAux q d (4294967295 + extra) 0 = bruteForce q d := by
  have h0 : ((0 : ℕ) : ZMod q) = 0 := Nat.cast_zero
  have h1 := bruteForceAux_fuel_irrelevant (q := q) d (4294967295 + extra) 0
    (by omega) (by omega)
  rw [h0] at h1
  rw [h1, bruteForce]

end RangeProofClaims

end Fde
